import Mathlib

/-!
Verification of the shortest-attack-path engine
(`Using_Dijkstra_to_Find_Shortest_Attack_Path.py`).

The development shallowly embeds the program's core: the adjacency-list
graph store (`Graph`, `Graph.add_edge`, `Graph.neighbors`, `Graph.nodes`),
the lazy-deletion Dijkstra loop (`dijkstra`), path reconstruction from the
predecessor map (`rebuild_path`), the connectivity augmenter
(`add_core_connectivity`), and the query/ranking glue of `main`
(`shortest_path`, `rank`).  Python `float` weights are modelled by `ℚ`,
Python dicts by insertion-ordered association lists, and the `heapq`
priority queue by a list from which a lexicographically minimal
`(distance, node)` pair is removed each iteration.
-/

/-- Association-list lookup (first matching key), modelling `dict.get`. -/
def alget {α : Type} : List (String × α) → String → Option α
  | [], _ => none
  | (k, v) :: t, key => if k = key then some v else alget t key

/-- Association-list update: overwrite the first matching key, or append a
fresh entry at the end (Python dicts preserve insertion order). -/
def alset {α : Type} : List (String × α) → String → α → List (String × α)
  | [], key, val => [(key, val)]
  | (k, v) :: t, key, val =>
      if k = key then (k, val) :: t else (k, v) :: alset t key val

/-- The keys of an association list, in insertion order. -/
def alkeys {α : Type} (l : List (String × α)) : List String :=
  l.map Prod.fst

/-- An edge of the attack graph: `Edge(src, dst, Result, weight)`. -/
structure Edge where
  src : String
  dst : String
  Result : String
  weight : ℚ
deriving DecidableEq, Repr

/-- The graph store: `self.adj : Dict[str, List[Edge]]`. -/
structure Graph where
  adj : List (String × List Edge)
deriving DecidableEq, Repr

/-- `Graph()` — the empty adjacency store. -/
def Graph.empty : Graph := ⟨[]⟩

/-- `self.adj.setdefault(src, []).append(e)` — append an edge to the list
stored under `src`, creating the key at the end if it is absent. -/
def appendEdge : List (String × List Edge) → String → Edge → List (String × List Edge)
  | [], key, e => [(key, [e])]
  | (k, es) :: t, key, e =>
      if k = key then (k, es ++ [e]) :: t else (k, es) :: appendEdge t key e

/-- `self.adj.setdefault(dst, [])` — ensure a key exists (empty list if new). -/
def ensureKey : List (String × List Edge) → String → List (String × List Edge)
  | [], key => [(key, [])]
  | (k, es) :: t, key =>
      if k = key then (k, es) :: t else (k, es) :: ensureKey t key

/-- `Graph.add_edge`: append `Edge(src, dst, Result, weight)` under `src`,
then ensure `dst` exists as a key. -/
def Graph.add_edge (g : Graph) (src dst Result : String) (weight : ℚ) : Graph :=
  ⟨ensureKey (appendEdge g.adj src ⟨src, dst, Result, weight⟩) dst⟩

/-- `Graph.neighbors`: `self.adj.get(node, [])`. -/
def Graph.neighbors (g : Graph) (node : String) : List Edge :=
  (alget g.adj node).getD []

/-- `Graph.nodes`: `list(self.adj.keys())`. -/
def Graph.nodes (g : Graph) : List String :=
  alkeys g.adj

/-- All stored edge weights are non-negative (the documented precondition of
the algorithm; `weight` is a non-negative real in the spec). -/
def NonnegW (g : Graph) : Prop :=
  ∀ p ∈ g.adj, ∀ e ∈ p.2, 0 ≤ e.weight

instance (g : Graph) : Decidable (NonnegW g) := by
  unfold NonnegW; infer_instance

/-- Every stored edge is filed under its own `src` field.  `add_edge` always
constructs the stored edge with `src` equal to the adjacency key, so every
graph built through the public API satisfies this. -/
def WFAdj (g : Graph) : Prop :=
  ∀ p ∈ g.adj, ∀ e ∈ p.2, e.src = p.1

instance (g : Graph) : Decidable (WFAdj g) := by
  unfold WFAdj; infer_instance

/-! ### The Dijkstra state and loop -/

/-- `DijkstraResult(dist, prev)`. -/
structure DijkstraResult where
  dist : List (String × ℚ)
  prev : List (String × (String × Edge))
deriving Repr

/-- The mutable state of the Dijkstra loop: the two result maps, the
priority queue `pq` and the `visited` set (kept as the list of nodes in
the order they were first visited). -/
structure DState where
  dist : List (String × ℚ)
  prev : List (String × (String × Edge))
  pq : List (ℚ × String)
  visited : List String
deriving Repr

/-- Lexicographic order on heap entries: `heapq` compares the
`(distance, node)` tuples componentwise. -/
def pqLe (a b : ℚ × String) : Prop :=
  a.1 < b.1 ∨ (a.1 = b.1 ∧ a.2 ≤ b.2)

instance (a b : ℚ × String) : Decidable (pqLe a b) := by
  unfold pqLe; infer_instance

/-- `heapq.heappop`: remove and return a lexicographically minimal entry. -/
def popMin (l : List (ℚ × String)) : Option ((ℚ × String) × List (ℚ × String)) :=
  match l with
  | [] => none
  | x :: t =>
      let m := t.foldl (fun a b => if pqLe a b then a else b) x
      some (m, l.erase m)

/-- One relaxation step: for edge `e` out of `u` (popped at distance
`cur_d`), update `dist`/`prev` and push onto `pq` when the candidate
distance beats `dist.get(e.dst, inf)`. -/
def relax1 (u : String) (cur_d : ℚ) (st : DState) (e : Edge) : DState :=
  let nd := cur_d + e.weight
  let better : Bool :=
    match alget st.dist e.dst with
    | none => true
    | some dv => decide (nd < dv)
  if better then
    { st with
      dist := alset st.dist e.dst nd
      prev := alset st.prev e.dst (u, e)
      pq := st.pq ++ [(nd, e.dst)] }
  else st

/-- The `for e in graph.neighbors(u)` relaxation loop. -/
def relaxEdges (u : String) (cur_d : ℚ) (es : List Edge) (st : DState) : DState :=
  es.foldl (relax1 u cur_d) st

/-- The `while pq:` loop, with explicit fuel.  `none` means the fuel ran
out with work remaining (we prove this never happens for the fuel used by
`dijkstra`). -/
def dloop (g : Graph) : Nat → DState → Option DState
  | fuel, st =>
    match popMin st.pq with
    | none => some st
    | some ((cur_d, u), rest) =>
      match fuel with
      | 0 => none
      | n + 1 =>
        if u ∈ st.visited then
          dloop g n { st with pq := rest }
        else if alget st.dist u = some cur_d then
          dloop g n (relaxEdges u cur_d (g.neighbors u)
            { st with pq := rest, visited := st.visited ++ [u] })
        else
          dloop g n { st with pq := rest, visited := st.visited ++ [u] }

/-- The initial loop state: `dist = {start: 0}`, `pq = [(0, start)]`. -/
def dinit (start : String) : DState :=
  ⟨[(start, 0)], [], [(0, start)], []⟩

/-- Sum of out-degrees over the not-yet-visited adjacency entries; together
with the queue length this bounds the remaining loop iterations. -/
def degSum : List (String × List Edge) → List String → Nat
  | [], _ => 0
  | (k, es) :: t, vis => (if k ∈ vis then 0 else es.length) + degSum t vis

/-- Loop measure: queue length plus unvisited out-degree sum. -/
def dmeasure (g : Graph) (st : DState) : Nat :=
  st.pq.length + degSum g.adj st.visited

/-- Fuel that always suffices for the whole run. -/
def dijkstraFuel (g : Graph) (start : String) : Nat :=
  dmeasure g (dinit start) + 1

/-- `dijkstra(graph, start)`.  The fuelled loop is run with provably
sufficient fuel; the fallback branch is unreachable. -/
def dijkstra (g : Graph) (start : String) : DijkstraResult :=
  match dloop g (dijkstraFuel g start) (dinit start) with
  | some st => ⟨st.dist, st.prev⟩
  | none => ⟨[(start, 0)], []⟩

/-! ### Path reconstruction -/

/-- The `while cur != start` walk of `rebuild_path`, with the `out_rev`
accumulator.  Returns `some [] `when a node has no predecessor entry
(the early `return []`), and the reversed accumulator once `start` is
reached.  `none` means the fuel ran out. -/
def rebuildW : Nat → List (String × (String × Edge)) → String → String → List Edge →
    Option (List Edge)
  | 0, _, _, _, _ => none
  | n + 1, prev, start, cur, out_rev =>
    if cur = start then some out_rev.reverse
    else
      match alget prev cur with
      | none => some []
      | some (parent, e) => rebuildW n prev start parent (out_rev ++ [e])

/-- `rebuild_path(prev, start, target)`.  The walk visits pairwise distinct
nodes on the predecessor maps produced by `dijkstra`, so fuel
`prev.length + 1` is always enough (proved below). -/
def rebuild_path (prev : List (String × (String × Edge))) (start target : String) :
    Option (List Edge) :=
  if target = start then some []
  else rebuildW (prev.length + 1) prev start target []

/-! ### Connectivity augmenter -/

/-- `add_core_connectivity`: insert the hub self-loop, then for every node
`n` of the list add `n -> core` and `core -> n` with the override weights
when present, else the defaults. -/
def add_core_connectivity (g : Graph) (nodes : List String) (core_node : String)
    (default_to_core default_from_core : ℚ)
    (overrides : List (String × (ℚ × ℚ))) : Graph :=
  let g1 := g.add_edge core_node core_node "noop" 0
  nodes.foldl
    (fun acc n =>
      let w := (alget overrides n).getD (default_to_core, default_from_core)
      (acc.add_edge n core_node "route_to_core" w.1).add_edge core_node n
        "route_from_core" w.2)
    g1

/-! ### Query glue modelled from `main` -/

/-- The query of `main`: reject a start or target node that is not in the
graph (the `[!] ... is not in the graph` early returns), otherwise run
`dijkstra`, read the cost with `dist.get(target, inf)` (`none` stands for
the infinite default) and rebuild the path. -/
def shortest_path (g : Graph) (start target : String) :
    Except String (Option ℚ × List Edge) :=
  if start ∉ g.nodes then .error "START node is not in the graph"
  else if target ∉ g.nodes then .error "TARGET node is not in the graph"
  else
    let res := dijkstra g start
    .ok (alget res.dist target, (rebuild_path res.prev start target).getD [])

/-- The cost used by the ranking: `res.dist.get(a, float("inf"))`,
with `⊤` standing for the infinite default. -/
def distTop (dist : List (String × ℚ)) (a : String) : WithTop ℚ :=
  match alget dist a with
  | some d => (d : WithTop ℚ)
  | none => ⊤

/-- The sort key comparison of `ranked.sort(key=lambda x: x[1])`. -/
def rankLe (x y : String × WithTop ℚ) : Prop := x.2 ≤ y.2

instance : DecidableRel rankLe := fun x y => by
  unfold rankLe; infer_instance

instance : IsTotal (String × WithTop ℚ) rankLe := ⟨fun a b => le_total a.2 b.2⟩

instance : IsTrans (String × WithTop ℚ) rankLe := ⟨fun _ _ _ h1 h2 => le_trans h1 h2⟩

/-- The asset ranking of `main`: pair every target with its computed cost
and sort ascending by cost. -/
def rank (g : Graph) (start : String) (targets : List String) :
    List (String × WithTop ℚ) :=
  List.insertionSort rankLe
    (targets.map (fun a => (a, distTop (dijkstra g start).dist a)))

/-! ### Paths -/

/-- A directed path in `g` from `u` to `t` along the edge list, of total
weight `c`: each edge is taken from the adjacency list of the node the
path has reached, and moves to that edge's `dst`. -/
inductive PathTo (g : Graph) : String → List Edge → String → ℚ → Prop
  | nil (v : String) : PathTo g v [] v 0
  | cons {u : String} {e : Edge} {p : List Edge} {t : String} {c : ℚ} :
      e ∈ g.neighbors u → PathTo g e.dst p t c → PathTo g u (e :: p) t (e.weight + c)

/-- Contiguity of an explicit edge sequence: the first edge leaves `u`,
consecutive edges are linked `dst = src`, and the last edge enters `t`
(for the empty sequence, `u = t`). -/
inductive EdgeLink : String → List Edge → String → Prop
  | nil (v : String) : EdgeLink v [] v
  | cons {u : String} {e : Edge} {p : List Edge} {t : String} :
      e.src = u → EdgeLink e.dst p t → EdgeLink u (e :: p) t

/-- Total weight of an edge sequence. -/
def sumW (es : List Edge) : ℚ :=
  es.foldr (fun e c => e.weight + c) 0

/-! ### Association-list lemmas -/

@[simp] theorem alget_nil {α : Type} (k : String) :
    alget ([] : List (String × α)) k = none := rfl

theorem alget_cons {α : Type} (k' : String) (v' : α) (t : List (String × α)) (k : String) :
    alget ((k', v') :: t) k = if k' = k then some v' else alget t k := rfl

@[simp] theorem alkeys_nil {α : Type} : alkeys ([] : List (String × α)) = [] := rfl

@[simp] theorem alkeys_cons {α : Type} (k : String) (v : α) (t : List (String × α)) :
    alkeys ((k, v) :: t) = k :: alkeys t := rfl

theorem alset_cons {α : Type} (k' : String) (v' : α) (t : List (String × α))
    (k : String) (v : α) :
    alset ((k', v') :: t) k v =
      if k' = k then (k', v) :: t else (k', v') :: alset t k v := rfl

theorem alget_mem {α : Type} {l : List (String × α)} {k : String} {v : α}
    (h : alget l k = some v) : (k, v) ∈ l := by
  induction l with
  | nil => simp at h
  | cons p t ih =>
    obtain ⟨k', v'⟩ := p
    rw [alget_cons] at h
    by_cases hk : k' = k
    · rw [if_pos hk] at h
      obtain rfl := Option.some.inj h
      subst hk
      exact List.mem_cons_self _ _
    · rw [if_neg hk] at h
      exact List.mem_cons_of_mem _ (ih h)

theorem mem_alkeys_of_alget {α : Type} {l : List (String × α)} {k : String} {v : α}
    (h : alget l k = some v) : k ∈ alkeys l :=
  List.mem_map.mpr ⟨(k, v), alget_mem h, rfl⟩

theorem alget_eq_none_of_not_mem {α : Type} {l : List (String × α)} {k : String}
    (h : k ∉ alkeys l) : alget l k = none := by
  induction l with
  | nil => rfl
  | cons p t ih =>
    obtain ⟨k', v'⟩ := p
    simp only [alkeys_cons, List.mem_cons] at h
    push_neg at h
    rw [alget_cons, if_neg (fun hh => h.1 hh.symm)]
    exact ih h.2

theorem alget_isSome_of_mem_alkeys {α : Type} {l : List (String × α)} {k : String}
    (h : k ∈ alkeys l) : (alget l k).isSome := by
  induction l with
  | nil => simp at h
  | cons p t ih =>
    obtain ⟨k', v'⟩ := p
    rw [alget_cons]
    by_cases hk : k' = k
    · simp [hk]
    · rw [if_neg hk]
      simp only [alkeys_cons, List.mem_cons] at h
      rcases h with h | h
      · exact absurd h.symm hk
      · exact ih h

theorem alget_alset_self {α : Type} (l : List (String × α)) (k : String) (v : α) :
    alget (alset l k v) k = some v := by
  induction l with
  | nil => simp [alset, alget]
  | cons p t ih =>
    obtain ⟨k', v'⟩ := p
    rw [alset_cons]
    by_cases hk : k' = k
    · rw [if_pos hk, alget_cons, if_pos hk]
    · rw [if_neg hk, alget_cons, if_neg hk]
      exact ih

theorem alget_alset_ne {α : Type} (l : List (String × α)) {k k' : String} (v : α)
    (h : k' ≠ k) : alget (alset l k v) k' = alget l k' := by
  induction l with
  | nil =>
    show alget [(k, v)] k' = none
    rw [alget_cons, if_neg (fun hh : k = k' => h hh.symm)]
    rfl
  | cons p t ih =>
    obtain ⟨k'', v''⟩ := p
    rw [alset_cons]
    by_cases hk : k'' = k
    · rw [if_pos hk, alget_cons, alget_cons]
      rw [if_neg (hk ▸ fun hh : k = k' => h hh.symm)]
      rw [if_neg (fun hh : k'' = k' => h (hk ▸ hh ▸ rfl))]
    · rw [if_neg hk, alget_cons, alget_cons]
      by_cases hk' : k'' = k'
      · rw [if_pos hk', if_pos hk']
      · rw [if_neg hk', if_neg hk']
        exact ih

theorem mem_alkeys_alset {α : Type} {l : List (String × α)} {k k' : String} {v : α} :
    k' ∈ alkeys (alset l k v) ↔ k' ∈ alkeys l ∨ k' = k := by
  induction l with
  | nil => simp [alset]
  | cons p t ih =>
    obtain ⟨k'', v''⟩ := p
    rw [alset_cons]
    by_cases hk : k'' = k
    · subst hk
      rw [if_pos rfl]
      simp only [alkeys_cons, List.mem_cons]
      tauto
    · rw [if_neg hk]
      simp only [alkeys_cons, List.mem_cons, ih]
      tauto

theorem alkeys_nodup_alset {α : Type} {l : List (String × α)} (k : String) (v : α)
    (h : (alkeys l).Nodup) : (alkeys (alset l k v)).Nodup := by
  induction l with
  | nil => simp [alset]
  | cons p t ih =>
    obtain ⟨k'', v''⟩ := p
    rw [alset_cons]
    simp only [alkeys_cons, List.nodup_cons] at h
    by_cases hk : k'' = k
    · rw [if_pos hk]
      simp only [alkeys_cons, List.nodup_cons]
      exact h
    · rw [if_neg hk]
      simp only [alkeys_cons, List.nodup_cons]
      refine ⟨?_, ih h.2⟩
      intro hmem
      rcases mem_alkeys_alset.mp hmem with hm | hm
      · exact h.1 hm
      · exact hk hm

/-! ### Visit-order index -/

/-- Position of a node in the visited-order list (length when absent). -/
def idx : List String → String → Nat
  | [], _ => 0
  | a :: l, v => if a = v then 0 else idx l v + 1

theorem idx_cons (a : String) (l : List String) (v : String) :
    idx (a :: l) v = if a = v then 0 else idx l v + 1 := rfl

theorem idx_lt_length {l : List String} {v : String} (h : v ∈ l) :
    idx l v < l.length := by
  induction l with
  | nil => simp at h
  | cons a t ih =>
    by_cases ha : a = v
    · simp [idx, ha]
    · rcases List.mem_cons.mp h with h' | h'
      · exact absurd h'.symm ha
      · simp only [idx, if_neg ha, List.length_cons]
        exact Nat.succ_lt_succ (ih h')

theorem idx_append_left {l l' : List String} {v : String} (h : v ∈ l) :
    idx (l ++ l') v = idx l v := by
  induction l with
  | nil => simp at h
  | cons a t ih =>
    by_cases ha : a = v
    · simp [idx, ha]
    · rcases List.mem_cons.mp h with h' | h'
      · exact absurd h'.symm ha
      · rw [List.cons_append, idx_cons, idx_cons, if_neg ha, if_neg ha, ih h']

theorem idx_append_of_not_mem {l : List String} {v : String} (h : v ∉ l)
    (l' : List String) : idx (l ++ l') v = l.length + idx l' v := by
  induction l with
  | nil => simp [idx]
  | cons a t ih =>
    simp only [List.mem_cons] at h
    push_neg at h
    rw [List.cons_append, idx_cons, if_neg (fun hh : a = v => h.1 hh.symm),
      ih h.2, List.length_cons]
    omega

theorem idx_of_not_mem {l : List String} {v : String} (h : v ∉ l) :
    idx l v = l.length := by
  have := idx_append_of_not_mem h []
  simpa [idx] using this

/-! ### Priority-queue pop lemmas -/

theorem pqLe_refl (a : ℚ × String) : pqLe a a := Or.inr ⟨rfl, le_rfl⟩

theorem pqLe_total (a b : ℚ × String) : pqLe a b ∨ pqLe b a := by
  rcases lt_trichotomy a.1 b.1 with h | h | h
  · exact Or.inl (Or.inl h)
  · rcases le_total a.2 b.2 with h2 | h2
    · exact Or.inl (Or.inr ⟨h, h2⟩)
    · exact Or.inr (Or.inr ⟨h.symm, h2⟩)
  · exact Or.inr (Or.inl h)

theorem pqLe_trans {a b c : ℚ × String} (h1 : pqLe a b) (h2 : pqLe b c) : pqLe a c := by
  rcases h1 with h1 | ⟨h1, h1'⟩ <;> rcases h2 with h2 | ⟨h2, h2'⟩
  · exact Or.inl (h1.trans h2)
  · exact Or.inl (h2 ▸ h1)
  · exact Or.inl (h1 ▸ h2)
  · exact Or.inr ⟨h1.trans h2, h1'.trans h2'⟩

theorem pqLe_fst {a b : ℚ × String} (h : pqLe a b) : a.1 ≤ b.1 := by
  rcases h with h | ⟨h, _⟩
  · exact h.le
  · exact h.le

theorem foldlMin_mem (t : List (ℚ × String)) (a : ℚ × String) :
    t.foldl (fun x y => if pqLe x y then x else y) a = a ∨
      t.foldl (fun x y => if pqLe x y then x else y) a ∈ t := by
  induction t generalizing a with
  | nil => exact Or.inl rfl
  | cons x s ih =>
    simp only [List.foldl_cons]
    by_cases h : pqLe a x
    · rw [if_pos h]
      rcases ih a with h' | h'
      · exact Or.inl h'
      · exact Or.inr (List.mem_cons_of_mem _ h')
    · rw [if_neg h]
      rcases ih x with h' | h'
      · exact Or.inr (by rw [h']; exact List.mem_cons_self _ _)
      · exact Or.inr (List.mem_cons_of_mem _ h')

theorem foldlMin_le (t : List (ℚ × String)) (a : ℚ × String) :
    ∀ y, (y = a ∨ y ∈ t) →
      pqLe (t.foldl (fun x y => if pqLe x y then x else y) a) y := by
  induction t generalizing a with
  | nil =>
    rintro y (rfl | hy)
    · exact pqLe_refl _
    · simp at hy
  | cons x s ih =>
    have hpick : pqLe (if pqLe a x then a else x) a ∧ pqLe (if pqLe a x then a else x) x := by
      by_cases h : pqLe a x
      · rw [if_pos h]; exact ⟨pqLe_refl _, h⟩
      · rw [if_neg h]
        rcases pqLe_total a x with h' | h'
        · exact absurd h' h
        · exact ⟨h', pqLe_refl _⟩
    rintro y (rfl | hy)
    · simp only [List.foldl_cons]
      exact pqLe_trans (ih _ _ (Or.inl rfl)) hpick.1
    · rcases List.mem_cons.mp hy with rfl | hy'
      · simp only [List.foldl_cons]
        exact pqLe_trans (ih _ _ (Or.inl rfl)) hpick.2
      · simp only [List.foldl_cons]
        exact ih _ _ (Or.inr hy')

theorem popMin_eq_none_iff (l : List (ℚ × String)) : popMin l = none ↔ l = [] := by
  cases l <;> simp [popMin]

theorem popMin_spec {l : List (ℚ × String)} {m : ℚ × String} {rest : List (ℚ × String)}
    (h : popMin l = some (m, rest)) :
    m ∈ l ∧ rest = l.erase m ∧ ∀ x ∈ l, m.1 ≤ x.1 := by
  cases l with
  | nil => simp [popMin] at h
  | cons x t =>
    simp only [popMin] at h
    have h' := Option.some.inj h
    have h1 : t.foldl (fun a b => if pqLe a b then a else b) x = m := congrArg Prod.fst h'
    have h2 : (x :: t).erase (t.foldl (fun a b => if pqLe a b then a else b) x) = rest :=
      congrArg Prod.snd h'
    rw [h1] at h2
    have hmem : m ∈ x :: t := by
      rcases foldlMin_mem t x with hm | hm
      · rw [← h1, hm]; exact List.mem_cons_self _ _
      · rw [← h1]; exact List.mem_cons_of_mem _ hm
    refine ⟨hmem, h2.symm, ?_⟩
    intro y hy
    have : pqLe m y := by
      rw [← h1]
      rcases List.mem_cons.mp hy with rfl | hy'
      · exact foldlMin_le t y y (Or.inl rfl)
      · exact foldlMin_le t x y (Or.inr hy')
    exact pqLe_fst this

/-! ### Graph-store lemmas -/

theorem nonneg_of_mem_neighbors {g : Graph} (hnn : NonnegW g) {u : String} {e : Edge}
    (h : e ∈ g.neighbors u) : 0 ≤ e.weight := by
  unfold Graph.neighbors at h
  cases hget : alget g.adj u with
  | none => rw [hget] at h; simp at h
  | some es =>
    rw [hget] at h
    simp at h
    exact hnn (u, es) (alget_mem hget) e h

theorem src_of_mem_neighbors {g : Graph} (hwf : WFAdj g) {u : String} {e : Edge}
    (h : e ∈ g.neighbors u) : e.src = u := by
  unfold Graph.neighbors at h
  cases hget : alget g.adj u with
  | none => rw [hget] at h; simp at h
  | some es =>
    rw [hget] at h
    simp at h
    exact hwf (u, es) (alget_mem hget) e h

/-! ### Path lemmas -/

theorem PathTo.weight_nonneg {g : Graph} (hnn : NonnegW g) {s : String} {p : List Edge}
    {v : String} {c : ℚ} (h : PathTo g s p v c) : 0 ≤ c := by
  induction h with
  | nil => exact le_refl 0
  | cons he _ ih => exact add_nonneg (nonneg_of_mem_neighbors hnn he) ih

theorem PathTo.append {g : Graph} {a : String} {p : List Edge} {b : String} {c₁ : ℚ}
    (h₁ : PathTo g a p b c₁) {q : List Edge} {t : String} {c₂ : ℚ}
    (h₂ : PathTo g b q t c₂) : PathTo g a (p ++ q) t (c₁ + c₂) := by
  induction h₁ with
  | nil => simpa using h₂
  | cons he _ ih =>
    rw [List.cons_append, add_assoc]
    exact PathTo.cons he (ih h₂)

theorem PathTo.snoc {g : Graph} {s : String} {p : List Edge} {u : String} {c : ℚ}
    (h : PathTo g s p u c) {e : Edge} (he : e ∈ g.neighbors u) :
    PathTo g s (p ++ [e]) e.dst (c + e.weight) := by
  have : PathTo g u [e] e.dst (e.weight + 0) := PathTo.cons he (PathTo.nil e.dst)
  rw [add_zero] at this
  exact h.append this

theorem PathTo.toEdgeLink {g : Graph} (hwf : WFAdj g) {s : String} {p : List Edge}
    {v : String} {c : ℚ} (h : PathTo g s p v c) : EdgeLink s p v := by
  induction h with
  | nil => exact EdgeLink.nil _
  | cons he _ ih => exact EdgeLink.cons (src_of_mem_neighbors hwf he) ih

theorem sumW_nil : sumW [] = 0 := rfl

theorem sumW_cons (e : Edge) (p : List Edge) : sumW (e :: p) = e.weight + sumW p := rfl

theorem PathTo.sumW_eq {g : Graph} {s : String} {p : List Edge} {v : String} {c : ℚ}
    (h : PathTo g s p v c) : sumW p = c := by
  induction h with
  | nil => rfl
  | cons _ _ ih => rw [sumW_cons, ih]

/-! ### Relaxation-step case analysis -/

/-- `relax1` either performs the update (when the candidate distance beats
the recorded one, or none is recorded) or leaves the state unchanged
(when a recorded distance is already at most the candidate). -/
theorem relax1_cases (u : String) (cur_d : ℚ) (st : DState) (e : Edge) :
    (relax1 u cur_d st e =
        { st with
          dist := alset st.dist e.dst (cur_d + e.weight)
          prev := alset st.prev e.dst (u, e)
          pq := st.pq ++ [(cur_d + e.weight, e.dst)] } ∧
      (alget st.dist e.dst = none ∨
        ∃ dv, alget st.dist e.dst = some dv ∧ cur_d + e.weight < dv)) ∨
    (relax1 u cur_d st e = st ∧
      ∃ dv, alget st.dist e.dst = some dv ∧ dv ≤ cur_d + e.weight) := by
  unfold relax1
  cases hdv : alget st.dist e.dst with
  | none =>
    left
    exact ⟨by simp, Or.inl rfl⟩
  | some dv =>
    by_cases hlt : cur_d + e.weight < dv
    · left
      exact ⟨by simp [hlt], Or.inr ⟨dv, rfl, hlt⟩⟩
    · right
      exact ⟨by simp [hlt], dv, rfl, le_of_not_lt hlt⟩

/-! ### Loop invariants

`DInv` collects the weight-agnostic facts maintained by the Dijkstra loop;
`DInvN` the additional facts that hold when all edge weights are
non-negative.  `RInv`/`RInvN` are the corresponding mid-relaxation
invariants, holding while the `for e in graph.neighbors(u)` loop of a
freshly visited node `u` (popped at distance `cur_d`) is running. -/

structure DInv (g : Graph) (start : String) (st : DState) : Prop where
  distKeysNodup : (alkeys st.dist).Nodup
  prevKeysNodup : (alkeys st.prev).Nodup
  visNodup : st.visited.Nodup
  startDom : (alget st.dist start).isSome
  sound : ∀ v d, alget st.dist v = some d → ∃ p, PathTo g start p v d
  pqDist : ∀ x ∈ st.pq, ∃ dv, alget st.dist x.2 = some dv ∧ dv ≤ x.1
  inQueue : ∀ v d, alget st.dist v = some d → v ∈ st.visited ∨ (d, v) ∈ st.pq
  hasPrev : ∀ v d, alget st.dist v = some d → v = start ∨ (alget st.prev v).isSome
  visDom : ∀ u ∈ st.visited, (alget st.dist u).isSome
  visAdj : ∀ u ∈ st.visited, ∀ e ∈ g.neighbors u, (alget st.dist e.dst).isSome
  prevAdj : ∀ v q, alget st.prev v = some q → q.2 ∈ g.neighbors q.1 ∧ q.2.dst = v

structure DInvN (g : Graph) (start : String) (st : DState) : Prop where
  s0 : alget st.dist start = some 0
  g1 : ∀ u ∈ st.visited, ∀ x ∈ st.pq, ∃ du, alget st.dist u = some du ∧ du ≤ x.1
  g2 : ∀ u ∈ st.visited, ∀ e ∈ g.neighbors u,
        ∃ du dd, alget st.dist u = some du ∧ alget st.dist e.dst = some dd ∧
          dd ≤ du + e.weight
  pfull : ∀ v q, alget st.prev v = some q →
        ∃ du, alget st.dist q.1 = some du ∧ alget st.dist v = some (du + q.2.weight) ∧
          q.1 ∈ st.visited ∧ idx st.visited q.1 < idx st.visited v

structure RInv (g : Graph) (start u : String) (cur_d : ℚ) (st : DState) : Prop where
  distKeysNodup : (alkeys st.dist).Nodup
  prevKeysNodup : (alkeys st.prev).Nodup
  visNodup : st.visited.Nodup
  startDom : (alget st.dist start).isSome
  sound : ∀ v d, alget st.dist v = some d → ∃ p, PathTo g start p v d
  pqDist : ∀ x ∈ st.pq, ∃ dv, alget st.dist x.2 = some dv ∧ dv ≤ x.1
  inQueue : ∀ v d, alget st.dist v = some d → v ∈ st.visited ∨ (d, v) ∈ st.pq
  hasPrev : ∀ v d, alget st.dist v = some d → v = start ∨ (alget st.prev v).isSome
  visDom : ∀ w ∈ st.visited, (alget st.dist w).isSome
  visAdjOld : ∀ w ∈ st.visited, w ≠ u → ∀ e ∈ g.neighbors w, (alget st.dist e.dst).isSome
  prevAdj : ∀ v q, alget st.prev v = some q → q.2 ∈ g.neighbors q.1 ∧ q.2.dst = v
  uVis : u ∈ st.visited
  hpu : ∃ p, PathTo g start p u cur_d

structure RInvN (g : Graph) (start u : String) (cur_d : ℚ) (st : DState) : Prop where
  s0 : alget st.dist start = some 0
  uDist : alget st.dist u = some cur_d
  visLe : ∀ w ∈ st.visited, ∃ dw, alget st.dist w = some dw ∧ dw ≤ cur_d
  pqGe : ∀ x ∈ st.pq, cur_d ≤ x.1
  g2old : ∀ w ∈ st.visited, w ≠ u → ∀ e ∈ g.neighbors w,
        ∃ dw dd, alget st.dist w = some dw ∧ alget st.dist e.dst = some dd ∧
          dd ≤ dw + e.weight
  pfull : ∀ v q, alget st.prev v = some q →
        ∃ du, alget st.dist q.1 = some du ∧ alget st.dist v = some (du + q.2.weight) ∧
          q.1 ∈ st.visited ∧ idx st.visited q.1 < idx st.visited v
  cdNonneg : 0 ≤ cur_d

/-- One relaxation step preserves the weight-agnostic mid-relaxation
invariant. -/
theorem relax1_rinv {g : Graph} {start u : String} {cur_d : ℚ} {st : DState} {e : Edge}
    (he : e ∈ g.neighbors u) (h : RInv g start u cur_d st) :
    RInv g start u cur_d (relax1 u cur_d st e) := by
  rcases relax1_cases u cur_d st e with ⟨heq, hch⟩ | ⟨heq, _⟩
  swap
  · rw [heq]; exact h
  rw [heq]
  set v := e.dst with hv
  set nd := cur_d + e.weight with hnd
  refine ⟨?_, ?_, h.visNodup, ?_, ?_, ?_, ?_, ?_, ?_, ?_, ?_, h.uVis, h.hpu⟩
  · exact alkeys_nodup_alset _ _ h.distKeysNodup
  · exact alkeys_nodup_alset _ _ h.prevKeysNodup
  · by_cases hs : start = v
    · subst hs; rw [alget_alset_self]; rfl
    · rw [alget_alset_ne _ _ hs]; exact h.startDom
  · intro w d hw
    by_cases hwv : w = v
    · subst hwv
      rw [alget_alset_self] at hw
      obtain rfl := Option.some.inj hw
      obtain ⟨p, hp⟩ := h.hpu
      exact ⟨p ++ [e], hp.snoc he⟩
    · rw [alget_alset_ne _ _ hwv] at hw
      exact h.sound w d hw
  · intro x hx
    rcases List.mem_append.mp hx with hx | hx
    · obtain ⟨dv, hdv, hle⟩ := h.pqDist x hx
      by_cases hxv : x.2 = v
      · rw [hxv] at hdv ⊢
        rw [alget_alset_self]
        rcases hch with hnone | ⟨dv', hdv', hlt⟩
        · rw [hdv] at hnone; cases hnone
        · rw [hdv] at hdv'
          obtain rfl := Option.some.inj hdv'
          exact ⟨nd, rfl, le_trans hlt.le hle⟩
      · rw [alget_alset_ne _ _ hxv]
        exact ⟨dv, hdv, hle⟩
    · rcases List.mem_singleton.mp hx with rfl
      rw [alget_alset_self]
      exact ⟨nd, rfl, le_rfl⟩
  · intro w d hw
    by_cases hwv : w = v
    · subst hwv
      rw [alget_alset_self] at hw
      obtain rfl := Option.some.inj hw
      exact Or.inr (List.mem_append.mpr (Or.inr (List.mem_singleton.mpr rfl)))
    · rw [alget_alset_ne _ _ hwv] at hw
      rcases h.inQueue w d hw with hvis | hpq
      · exact Or.inl hvis
      · exact Or.inr (List.mem_append.mpr (Or.inl hpq))
  · intro w d hw
    by_cases hwv : w = v
    · subst hwv
      right
      rw [alget_alset_self]
      rfl
    · rw [alget_alset_ne _ _ hwv] at hw
      rcases h.hasPrev w d hw with hs | hp
      · exact Or.inl hs
      · right
        rw [alget_alset_ne _ _ hwv]
        exact hp
  · intro w hwvis
    by_cases hwv : w = v
    · subst hwv; rw [alget_alset_self]; rfl
    · rw [alget_alset_ne _ _ hwv]; exact h.visDom w hwvis
  · intro w hwvis hwu e' he'
    by_cases hdv : e'.dst = v
    · rw [hdv, alget_alset_self]; rfl
    · rw [alget_alset_ne _ _ hdv]; exact h.visAdjOld w hwvis hwu e' he'
  · intro w q hq
    by_cases hwv : w = v
    · subst hwv
      rw [alget_alset_self] at hq
      obtain rfl := Option.some.inj hq
      exact ⟨he, rfl⟩
    · rw [alget_alset_ne _ _ hwv] at hq
      exact h.prevAdj w q hq

/-- One relaxation step preserves the non-negative-weights mid-relaxation
invariant. -/
theorem relax1_rinvN {g : Graph} {start u : String} {cur_d : ℚ} {st : DState} {e : Edge}
    (hnn : NonnegW g) (he : e ∈ g.neighbors u) (h : RInv g start u cur_d st)
    (hn : RInvN g start u cur_d st) : RInvN g start u cur_d (relax1 u cur_d st e) := by
  rcases relax1_cases u cur_d st e with ⟨heq, hch⟩ | ⟨heq, _⟩
  swap
  · rw [heq]; exact hn
  rw [heq]
  set v := e.dst with hv
  set nd := cur_d + e.weight with hnd
  have hw0 : 0 ≤ e.weight := nonneg_of_mem_neighbors hnn he
  have hndc : cur_d ≤ nd := le_add_of_nonneg_right hw0
  have hvnot : v ∉ st.visited := by
    intro hvin
    obtain ⟨dv', hdv', hle'⟩ := hn.visLe v hvin
    rcases hch with hnone | ⟨dv, hdv, hlt⟩
    · rw [hdv'] at hnone; cases hnone
    · rw [hdv'] at hdv
      obtain rfl := Option.some.inj hdv
      exact absurd hlt (not_lt.mpr (le_trans hle' hndc))
  have hsv : start ≠ v := by
    intro hsv
    rcases hch with hnone | ⟨dv, hdv, hlt⟩
    · rw [← hsv, hn.s0] at hnone; cases hnone
    · rw [← hsv, hn.s0] at hdv
      obtain rfl := Option.some.inj hdv
      exact absurd hlt (not_lt.mpr (le_trans hn.cdNonneg hndc))
  have huv : u ≠ v := by
    intro huv
    rcases hch with hnone | ⟨dv, hdv, hlt⟩
    · rw [← huv, hn.uDist] at hnone; cases hnone
    · rw [← huv, hn.uDist] at hdv
      obtain rfl := Option.some.inj hdv
      exact absurd hlt (not_lt.mpr hndc)
  refine ⟨?_, ?_, ?_, ?_, ?_, ?_, hn.cdNonneg⟩
  · rw [alget_alset_ne _ _ hsv]; exact hn.s0
  · rw [alget_alset_ne _ _ huv]; exact hn.uDist
  · intro w hwvis
    have hwv : w ≠ v := fun hh => hvnot (hh ▸ hwvis)
    rw [alget_alset_ne _ _ hwv]
    exact hn.visLe w hwvis
  · intro x hx
    rcases List.mem_append.mp hx with hx | hx
    · exact hn.pqGe x hx
    · rcases List.mem_singleton.mp hx with rfl
      exact hndc
  · intro w hwvis hwu e' he'
    obtain ⟨dw, dd, hdw, hdd, hle⟩ := hn.g2old w hwvis hwu e' he'
    have hwv : w ≠ v := fun hh => hvnot (hh ▸ hwvis)
    by_cases hdv : e'.dst = v
    · rcases hch with hnone | ⟨dv, hdvv, hlt⟩
      · rw [hdv] at hdd; rw [hdd] at hnone; cases hnone
      · rw [hdv] at hdd; rw [hdd] at hdvv
        obtain rfl := Option.some.inj hdvv
        refine ⟨dw, nd, ?_, ?_, le_trans hlt.le hle⟩
        · rw [alget_alset_ne _ _ hwv]; exact hdw
        · rw [hdv, alget_alset_self]
    · refine ⟨dw, dd, ?_, ?_, hle⟩
      · rw [alget_alset_ne _ _ hwv]; exact hdw
      · rw [alget_alset_ne _ _ hdv]; exact hdd
  · intro w q hq
    by_cases hwv : w = v
    · subst hwv
      rw [alget_alset_self] at hq
      obtain rfl := Option.some.inj hq
      refine ⟨cur_d, ?_, ?_, h.uVis, ?_⟩
      · rw [alget_alset_ne _ _ huv]; exact hn.uDist
      · rw [alget_alset_self]
      · rw [idx_of_not_mem hvnot]
        exact idx_lt_length h.uVis
    · rw [alget_alset_ne _ _ hwv] at hq
      obtain ⟨du, hdu, hdv', hqvis, hidx⟩ := hn.pfull w q hq
      have hq1v : q.1 ≠ v := fun hh => hvnot (hh ▸ hqvis)
      refine ⟨du, ?_, ?_, hqvis, hidx⟩
      · rw [alget_alset_ne _ _ hq1v]; exact hdu
      · rw [alget_alset_ne _ _ hwv]; exact hdv'

/-! ### Relaxation-fold lemmas -/

theorem relax1_visited_eq (u : String) (cur_d : ℚ) (st : DState) (e : Edge) :
    (relax1 u cur_d st e).visited = st.visited := by
  rcases relax1_cases u cur_d st e with ⟨heq, _⟩ | ⟨heq, _⟩ <;> rw [heq]

theorem relaxEdges_visited_eq (u : String) (cur_d : ℚ) (es : List Edge) (st : DState) :
    (relaxEdges u cur_d es st).visited = st.visited := by
  induction es generalizing st with
  | nil => rfl
  | cons e rest ih =>
    show (relaxEdges u cur_d rest (relax1 u cur_d st e)).visited = st.visited
    rw [ih, relax1_visited_eq]

theorem relax1_dom_mono {u : String} {cur_d : ℚ} {st : DState} {e : Edge} {w : String}
    (h : (alget st.dist w).isSome) : (alget (relax1 u cur_d st e).dist w).isSome := by
  rcases relax1_cases u cur_d st e with ⟨heq, _⟩ | ⟨heq, _⟩ <;> rw [heq]
  · by_cases hw : w = e.dst
    · subst hw; rw [alget_alset_self]; rfl
    · rw [alget_alset_ne _ _ hw]; exact h
  · exact h

theorem relax1_dist_mono {u : String} {cur_d : ℚ} {st : DState} {e : Edge} {w : String}
    {d : ℚ} (h : alget st.dist w = some d) :
    ∃ d', alget (relax1 u cur_d st e).dist w = some d' ∧ d' ≤ d := by
  rcases relax1_cases u cur_d st e with ⟨heq, hch⟩ | ⟨heq, _⟩ <;> rw [heq]
  · by_cases hw : w = e.dst
    · subst hw
      rw [alget_alset_self]
      rcases hch with hnone | ⟨dv, hdv, hlt⟩
      · rw [h] at hnone; cases hnone
      · rw [h] at hdv
        obtain rfl := Option.some.inj hdv
        exact ⟨_, rfl, hlt.le⟩
    · rw [alget_alset_ne _ _ hw]
      exact ⟨d, h, le_rfl⟩
  · exact ⟨d, h, le_rfl⟩

theorem relaxEdges_dom_mono {u : String} {cur_d : ℚ} {es : List Edge} {st : DState}
    {w : String} (h : (alget st.dist w).isSome) :
    (alget (relaxEdges u cur_d es st).dist w).isSome := by
  induction es generalizing st with
  | nil => exact h
  | cons e rest ih => exact ih (relax1_dom_mono h)

theorem relaxEdges_dist_mono {u : String} {cur_d : ℚ} {es : List Edge} {st : DState}
    {w : String} {d : ℚ} (h : alget st.dist w = some d) :
    ∃ d', alget (relaxEdges u cur_d es st).dist w = some d' ∧ d' ≤ d := by
  induction es generalizing st d with
  | nil => exact ⟨d, h, le_rfl⟩
  | cons e rest ih =>
    obtain ⟨d1, hd1, hle1⟩ := @relax1_dist_mono u cur_d st e w d h
    obtain ⟨d2, hd2, hle2⟩ := ih hd1
    exact ⟨d2, hd2, le_trans hle2 hle1⟩

theorem relaxEdges_dst_le {u : String} {cur_d : ℚ} {es : List Edge} {st : DState} :
    ∀ e ∈ es, ∃ dd, alget (relaxEdges u cur_d es st).dist e.dst = some dd ∧
      dd ≤ cur_d + e.weight := by
  induction es generalizing st with
  | nil => intro e he; simp at he
  | cons e0 rest ih =>
    intro e he
    rcases List.mem_cons.mp he with rfl | he'
    · have h1 : ∃ dd, alget (relax1 u cur_d st e).dist e.dst = some dd ∧
          dd ≤ cur_d + e.weight := by
        rcases relax1_cases u cur_d st e with ⟨heq, _⟩ | ⟨heq, hge⟩ <;> rw [heq]
        · rw [alget_alset_self]; exact ⟨_, rfl, le_rfl⟩
        · obtain ⟨dv, hdv, hle⟩ := hge
          exact ⟨dv, hdv, hle⟩
      obtain ⟨dd, hdd, hle⟩ := h1
      obtain ⟨dd', hdd', hle'⟩ := @relaxEdges_dist_mono u cur_d rest _ _ _ hdd
      exact ⟨dd', hdd', le_trans hle' hle⟩
    · exact ih e he'

theorem relaxEdges_rinv {g : Graph} {start u : String} {cur_d : ℚ} {es : List Edge}
    {st : DState} (hes : ∀ e ∈ es, e ∈ g.neighbors u)
    (h : RInv g start u cur_d st) : RInv g start u cur_d (relaxEdges u cur_d es st) := by
  induction es generalizing st with
  | nil => exact h
  | cons e rest ih =>
    exact ih (fun e' he' => hes e' (List.mem_cons_of_mem _ he'))
      (relax1_rinv (hes e (List.mem_cons_self _ _)) h)

theorem relaxEdges_rinvN {g : Graph} {start u : String} {cur_d : ℚ} {es : List Edge}
    {st : DState} (hnn : NonnegW g) (hes : ∀ e ∈ es, e ∈ g.neighbors u)
    (h : RInv g start u cur_d st) (hn : RInvN g start u cur_d st) :
    RInvN g start u cur_d (relaxEdges u cur_d es st) := by
  induction es generalizing st with
  | nil => exact hn
  | cons e rest ih =>
    exact ih (fun e' he' => hes e' (List.mem_cons_of_mem _ he'))
      (relax1_rinv (hes e (List.mem_cons_self _ _)) h)
      (relax1_rinvN hnn (hes e (List.mem_cons_self _ _)) h hn)

/-! ### Branch lemmas for the main loop -/

/-- Entering the relaxation of a freshly visited node establishes the
mid-relaxation invariant. -/
theorem rinv_entry {g : Graph} {start : String} {st : DState} {cur_d : ℚ} {u : String}
    {rest : List (ℚ × String)} (h : DInv g start st)
    (hpop : popMin st.pq = some ((cur_d, u), rest)) (huvis : u ∉ st.visited)
    (hcheck : alget st.dist u = some cur_d) :
    RInv g start u cur_d { st with pq := rest, visited := st.visited ++ [u] } := by
  obtain ⟨hm, hrest, hmin⟩ := popMin_spec hpop
  refine ⟨h.distKeysNodup, h.prevKeysNodup, ?_, h.startDom, h.sound, ?_, ?_, h.hasPrev,
    ?_, ?_, h.prevAdj, ?_, h.sound u cur_d hcheck⟩
  · rw [List.nodup_append]
    exact ⟨h.visNodup, List.nodup_singleton u,
      fun a ha hb => huvis ((List.mem_singleton.mp hb) ▸ ha)⟩
  · intro x hx
    exact h.pqDist x (List.mem_of_mem_erase (hrest ▸ hx))
  · intro v d hd
    rcases h.inQueue v d hd with hvis | hpq
    · exact Or.inl (List.mem_append.mpr (Or.inl hvis))
    · by_cases hdv : (d, v) = (cur_d, u)
      · obtain rfl : v = u := congrArg Prod.snd hdv
        exact Or.inl (List.mem_append.mpr (Or.inr (List.mem_singleton.mpr rfl)))
      · right
        rw [hrest]
        exact (List.mem_erase_of_ne hdv).mpr hpq
  · intro w hw
    rcases List.mem_append.mp hw with hw | hw
    · exact h.visDom w hw
    · rw [List.mem_singleton.mp hw, hcheck]; rfl
  · intro w hw hwu e' he'
    rcases List.mem_append.mp hw with hw | hw
    · exact h.visAdj w hw e' he'
    · exact absurd (List.mem_singleton.mp hw) hwu
  · exact List.mem_append.mpr (Or.inr (List.mem_singleton.mpr rfl))

/-- Entering the relaxation also establishes the non-negative-weights
mid-relaxation invariant. -/
theorem rinvN_entry {g : Graph} {start : String} {st : DState} {cur_d : ℚ} {u : String}
    {rest : List (ℚ × String)} (hnn : NonnegW g) (h : DInv g start st)
    (hn : DInvN g start st) (hpop : popMin st.pq = some ((cur_d, u), rest))
    (huvis : u ∉ st.visited) (hcheck : alget st.dist u = some cur_d) :
    RInvN g start u cur_d { st with pq := rest, visited := st.visited ++ [u] } := by
  obtain ⟨hm, hrest, hmin⟩ := popMin_spec hpop
  have hcd : 0 ≤ cur_d := by
    obtain ⟨p, hp⟩ := h.sound u cur_d hcheck
    exact hp.weight_nonneg hnn
  refine ⟨hn.s0, hcheck, ?_, ?_, ?_, ?_, hcd⟩
  · intro w hw
    rcases List.mem_append.mp hw with hw | hw
    · obtain ⟨du, hdu, hle⟩ := hn.g1 w hw (cur_d, u) hm
      exact ⟨du, hdu, hle⟩
    · rw [List.mem_singleton.mp hw]
      exact ⟨cur_d, hcheck, le_rfl⟩
  · intro x hx
    exact hmin x (List.mem_of_mem_erase (hrest ▸ hx))
  · intro w hw hwu e' he'
    rcases List.mem_append.mp hw with hw | hw
    · exact hn.g2 w hw e' he'
    · exact absurd (List.mem_singleton.mp hw) hwu
  · intro v q hq
    obtain ⟨du, hdu, hdv, hqvis, hidx⟩ := hn.pfull v q hq
    refine ⟨du, hdu, hdv, List.mem_append.mpr (Or.inl hqvis), ?_⟩
    rw [idx_append_left hqvis]
    by_cases hv : v ∈ st.visited
    · rw [idx_append_left hv]; exact hidx
    · have hvlen : idx st.visited v = st.visited.length := idx_of_not_mem hv
      have : idx st.visited q.1 < st.visited.length := idx_lt_length hqvis
      by_cases hvu : v = u
      · subst hvu
        rw [idx_append_of_not_mem hv, idx_cons, if_pos rfl]
        omega
      · rw [idx_append_of_not_mem hv, idx_cons,
          if_neg (fun hh : u = v => hvu hh.symm)]
        omega

/-- Leaving the relaxation fold restores the outer invariant. -/
theorem dinv_exit {g : Graph} {start u : String} {cur_d : ℚ} {st1 : DState}
    (h : RInv g start u cur_d st1) :
    DInv g start (relaxEdges u cur_d (g.neighbors u) st1) := by
  have h2 : RInv g start u cur_d (relaxEdges u cur_d (g.neighbors u) st1) :=
    relaxEdges_rinv (fun _ he => he) h
  refine ⟨h2.distKeysNodup, h2.prevKeysNodup, h2.visNodup, h2.startDom, h2.sound,
    h2.pqDist, h2.inQueue, h2.hasPrev, h2.visDom, ?_, h2.prevAdj⟩
  intro w hw e' he'
  by_cases hwu : w = u
  · subst hwu
    obtain ⟨dd, hdd, _⟩ := @relaxEdges_dst_le w cur_d (g.neighbors w) st1 e' he'
    rw [hdd]; rfl
  · exact h2.visAdjOld w hw hwu e' he'

/-- Leaving the relaxation fold restores the outer non-negative-weights
invariant. -/
theorem dinvN_exit {g : Graph} {start u : String} {cur_d : ℚ} {st1 : DState}
    (hnn : NonnegW g) (h : RInv g start u cur_d st1) (hn : RInvN g start u cur_d st1) :
    DInvN g start (relaxEdges u cur_d (g.neighbors u) st1) := by
  have h2 : RInv g start u cur_d (relaxEdges u cur_d (g.neighbors u) st1) :=
    relaxEdges_rinv (fun _ he => he) h
  have hn2 : RInvN g start u cur_d (relaxEdges u cur_d (g.neighbors u) st1) :=
    relaxEdges_rinvN hnn (fun _ he => he) h hn
  refine ⟨hn2.s0, ?_, ?_, hn2.pfull⟩
  · intro w hw x hx
    obtain ⟨dw, hdw, hle⟩ := hn2.visLe w hw
    exact ⟨dw, hdw, le_trans hle (hn2.pqGe x hx)⟩
  · intro w hw e' he'
    by_cases hwu : w = u
    · subst hwu
      obtain ⟨dd, hdd, hle⟩ := @relaxEdges_dst_le w cur_d (g.neighbors w) st1 e' he'
      exact ⟨cur_d, dd, hn2.uDist, hdd, hle⟩
    · exact hn2.g2old w hw hwu e' he'

/-- The already-visited branch (`if u in visited: continue`) preserves the
outer invariant. -/
theorem dinv_skip {g : Graph} {start : String} {st : DState} {cur_d : ℚ} {u : String}
    {rest : List (ℚ × String)} (h : DInv g start st)
    (hpop : popMin st.pq = some ((cur_d, u), rest)) (huvis : u ∈ st.visited) :
    DInv g start { st with pq := rest } := by
  obtain ⟨hm, hrest, hmin⟩ := popMin_spec hpop
  refine ⟨h.distKeysNodup, h.prevKeysNodup, h.visNodup, h.startDom, h.sound, ?_, ?_,
    h.hasPrev, h.visDom, h.visAdj, h.prevAdj⟩
  · intro x hx
    exact h.pqDist x (List.mem_of_mem_erase (hrest ▸ hx))
  · intro v d hd
    rcases h.inQueue v d hd with hvis | hpq
    · exact Or.inl hvis
    · by_cases hdv : (d, v) = (cur_d, u)
      · obtain rfl : v = u := congrArg Prod.snd hdv
        exact Or.inl huvis
      · right
        rw [hrest]
        exact (List.mem_erase_of_ne hdv).mpr hpq

/-- The already-visited branch preserves the non-negative-weights
invariant. -/
theorem dinvN_skip {g : Graph} {start : String} {st : DState} {cur_d : ℚ} {u : String}
    {rest : List (ℚ × String)} (hn : DInvN g start st)
    (hpop : popMin st.pq = some ((cur_d, u), rest)) :
    DInvN g start { st with pq := rest } := by
  obtain ⟨hm, hrest, hmin⟩ := popMin_spec hpop
  refine ⟨hn.s0, ?_, hn.g2, hn.pfull⟩
  intro w hw x hx
  exact hn.g1 w hw x (List.mem_of_mem_erase (hrest ▸ hx))

/-- The stale-entry branch (`cur_d != dist.get(u)`) is never taken for a
not-yet-visited node: the popped key always equals the recorded
distance. -/
theorem stale_impossible {g : Graph} {start : String} {st : DState} {cur_d : ℚ}
    {u : String} {rest : List (ℚ × String)} (h : DInv g start st)
    (hpop : popMin st.pq = some ((cur_d, u), rest)) (huvis : u ∉ st.visited)
    (hne : ¬alget st.dist u = some cur_d) : False := by
  obtain ⟨hm, hrest, hmin⟩ := popMin_spec hpop
  obtain ⟨du, hdu, hle⟩ := h.pqDist (cur_d, u) hm
  rcases h.inQueue u du hdu with hvis | hpq
  · exact huvis hvis
  · have : cur_d ≤ du := hmin (du, u) hpq
    have : du = cur_d := le_antisymm hle this
    exact hne (this ▸ hdu)

/-- The initial state satisfies the outer invariant. -/
theorem dinit_dinv (g : Graph) (start : String) : DInv g start (dinit start) := by
  have hget : ∀ v d, alget (dinit start).dist v = some d → v = start ∧ d = 0 := by
    intro v d hd
    rw [show (dinit start).dist = [(start, 0)] from rfl, alget_cons] at hd
    by_cases hv : start = v
    · rw [if_pos hv] at hd
      exact ⟨hv.symm, (Option.some.inj hd).symm⟩
    · rw [if_neg hv] at hd
      simp at hd
  refine ⟨?_, ?_, ?_, ?_, ?_, ?_, ?_, ?_, ?_, ?_, ?_⟩
  · simp [dinit]
  · simp [dinit]
  · simp [dinit]
  · rw [show (dinit start).dist = [(start, 0)] from rfl, alget_cons, if_pos rfl]; rfl
  · intro v d hd
    obtain ⟨rfl, rfl⟩ := hget v d hd
    exact ⟨[], PathTo.nil _⟩
  · intro x hx
    rw [show (dinit start).pq = [(0, start)] from rfl] at hx
    rcases List.mem_singleton.mp hx with rfl
    rw [show (dinit start).dist = [(start, 0)] from rfl, alget_cons, if_pos rfl]
    exact ⟨0, rfl, le_rfl⟩
  · intro v d hd
    obtain ⟨rfl, rfl⟩ := hget v d hd
    right
    rw [show (dinit v).pq = [(0, v)] from rfl]
    exact List.mem_singleton.mpr rfl
  · intro v d hd
    exact Or.inl (hget v d hd).1
  · intro w hw
    simp [dinit] at hw
  · intro w hw
    simp [dinit] at hw
  · intro v q hq
    rw [show (dinit start).prev = [] from rfl] at hq
    simp at hq

/-- The initial state satisfies the non-negative-weights invariant. -/
theorem dinit_dinvN (g : Graph) (start : String) : DInvN g start (dinit start) := by
  refine ⟨?_, ?_, ?_, ?_⟩
  · rw [show (dinit start).dist = [(start, 0)] from rfl, alget_cons, if_pos rfl]
  · intro w hw
    simp [dinit] at hw
  · intro w hw
    simp [dinit] at hw
  · intro v q hq
    rw [show (dinit start).prev = [] from rfl] at hq
    simp at hq

/-! ### The main loop: invariant preservation and termination -/

theorem dloop_none {g : Graph} {fuel : Nat} {st : DState}
    (h : popMin st.pq = none) : dloop g fuel st = some st := by
  unfold dloop
  rw [h]

theorem dloop_zero {g : Graph} {st : DState} {x : (ℚ × String) × List (ℚ × String)}
    (h : popMin st.pq = some x) : dloop g 0 st = none := by
  unfold dloop
  rw [h]

theorem dloop_succ {g : Graph} {n : Nat} {st : DState} {cur_d : ℚ} {u : String}
    {rest : List (ℚ × String)} (h : popMin st.pq = some ((cur_d, u), rest)) :
    dloop g (n + 1) st =
      if u ∈ st.visited then dloop g n { st with pq := rest }
      else if alget st.dist u = some cur_d then
        dloop g n (relaxEdges u cur_d (g.neighbors u)
          { st with pq := rest, visited := st.visited ++ [u] })
      else dloop g n { st with pq := rest, visited := st.visited ++ [u] } := by
  conv_lhs => unfold dloop
  rw [h]

theorem dloop_dinv {g : Graph} {start : String} :
    ∀ (n : Nat) (st st' : DState), dloop g n st = some st' → DInv g start st →
      DInv g start st' ∧ st'.pq = [] := by
  intro n
  induction n with
  | zero =>
    intro st st' hrun h
    cases hpop : popMin st.pq with
    | none =>
      rw [dloop_none hpop] at hrun
      obtain rfl := Option.some.inj hrun
      exact ⟨h, (popMin_eq_none_iff _).mp hpop⟩
    | some m =>
      rw [dloop_zero hpop] at hrun
      cases hrun
  | succ n ih =>
    intro st st' hrun h
    cases hpop : popMin st.pq with
    | none =>
      rw [dloop_none hpop] at hrun
      obtain rfl := Option.some.inj hrun
      exact ⟨h, (popMin_eq_none_iff _).mp hpop⟩
    | some m =>
      obtain ⟨⟨cur_d, u⟩, rest⟩ := m
      rw [dloop_succ hpop] at hrun
      by_cases hvis : u ∈ st.visited
      · rw [if_pos hvis] at hrun
        exact ih _ _ hrun (dinv_skip h hpop hvis)
      · rw [if_neg hvis] at hrun
        by_cases hcheck : alget st.dist u = some cur_d
        · rw [if_pos hcheck] at hrun
          exact ih _ _ hrun (dinv_exit (rinv_entry h hpop hvis hcheck))
        · exact (stale_impossible h hpop hvis hcheck).elim

theorem dloop_dinvN {g : Graph} {start : String} (hnn : NonnegW g) :
    ∀ (n : Nat) (st st' : DState), dloop g n st = some st' → DInv g start st →
      DInvN g start st → DInvN g start st' := by
  intro n
  induction n with
  | zero =>
    intro st st' hrun h hn
    cases hpop : popMin st.pq with
    | none =>
      rw [dloop_none hpop] at hrun
      obtain rfl := Option.some.inj hrun
      exact hn
    | some m =>
      rw [dloop_zero hpop] at hrun
      cases hrun
  | succ n ih =>
    intro st st' hrun h hn
    cases hpop : popMin st.pq with
    | none =>
      rw [dloop_none hpop] at hrun
      obtain rfl := Option.some.inj hrun
      exact hn
    | some m =>
      obtain ⟨⟨cur_d, u⟩, rest⟩ := m
      rw [dloop_succ hpop] at hrun
      by_cases hvis : u ∈ st.visited
      · rw [if_pos hvis] at hrun
        exact ih _ _ hrun (dinv_skip h hpop hvis) (dinvN_skip hn hpop)
      · rw [if_neg hvis] at hrun
        by_cases hcheck : alget st.dist u = some cur_d
        · rw [if_pos hcheck] at hrun
          exact ih _ _ hrun (dinv_exit (rinv_entry h hpop hvis hcheck))
            (dinvN_exit hnn (rinv_entry h hpop hvis hcheck)
              (rinvN_entry hnn h hn hpop hvis hcheck))
        · exact (stale_impossible h hpop hvis hcheck).elim

theorem relax1_pq_le (u : String) (cur_d : ℚ) (st : DState) (e : Edge) :
    (relax1 u cur_d st e).pq.length ≤ st.pq.length + 1 := by
  rcases relax1_cases u cur_d st e with ⟨heq, _⟩ | ⟨heq, _⟩ <;> rw [heq] <;> simp

theorem relaxEdges_pq_le (u : String) (cur_d : ℚ) (es : List Edge) (st : DState) :
    (relaxEdges u cur_d es st).pq.length ≤ st.pq.length + es.length := by
  induction es generalizing st with
  | nil => simp [relaxEdges]
  | cons e rest ih =>
    calc (relaxEdges u cur_d rest (relax1 u cur_d st e)).pq.length
        ≤ (relax1 u cur_d st e).pq.length + rest.length := ih _
      _ ≤ st.pq.length + 1 + rest.length := by
          exact Nat.add_le_add_right (relax1_pq_le u cur_d st e) _
      _ = st.pq.length + (e :: rest).length := by simp; omega

theorem degSum_mono {adj : List (String × List Edge)} {vis vis' : List String}
    (hsub : ∀ a ∈ vis, a ∈ vis') : degSum adj vis' ≤ degSum adj vis := by
  induction adj with
  | nil => exact le_rfl
  | cons p t ih =>
    obtain ⟨k, es⟩ := p
    show (if k ∈ vis' then 0 else es.length) + degSum t vis' ≤
      (if k ∈ vis then 0 else es.length) + degSum t vis
    by_cases hk : k ∈ vis
    · rw [if_pos hk, if_pos (hsub k hk)]
      simpa using ih
    · rw [if_neg hk]
      by_cases hk' : k ∈ vis'
      · rw [if_pos hk']
        have := ih
        omega
      · rw [if_neg hk']
        exact Nat.add_le_add_left ih _

theorem degSum_visit {adj : List (String × List Edge)} {vis : List String} {u : String}
    (hu : u ∉ vis) :
    degSum adj (vis ++ [u]) + ((alget adj u).getD []).length ≤ degSum adj vis := by
  induction adj with
  | nil => simp [degSum]
  | cons p t ih =>
    obtain ⟨k, es⟩ := p
    show (if k ∈ vis ++ [u] then 0 else es.length) + degSum t (vis ++ [u]) +
        ((alget ((k, es) :: t) u).getD []).length ≤
      (if k ∈ vis then 0 else es.length) + degSum t vis
    by_cases hk : k = u
    · subst hk
      rw [if_pos (List.mem_append.mpr (Or.inr (List.mem_singleton.mpr rfl))),
        if_neg hu, alget_cons, if_pos rfl]
      have hmono := @degSum_mono t vis (vis ++ [k])
        (fun a ha => List.mem_append.mpr (Or.inl ha))
      simp only [Option.getD_some]
      omega
    · rw [alget_cons, if_neg hk]
      have hmem : k ∈ vis ++ [u] ↔ k ∈ vis := by
        rw [List.mem_append, List.mem_singleton]
        exact ⟨fun h => h.resolve_right hk, Or.inl⟩
      by_cases hkv : k ∈ vis
      · rw [if_pos (hmem.mpr hkv), if_pos hkv]
        simpa using ih
      · rw [if_neg (fun hh => hkv (hmem.mp hh)), if_neg hkv]
        have := ih
        omega

/-- The fuelled loop succeeds as soon as the fuel exceeds the measure:
each iteration removes one queue entry and pushes at most the out-degree
of a node that simultaneously leaves the unvisited set. -/
theorem dloop_isSome {g : Graph} :
    ∀ (n : Nat) (st : DState), dmeasure g st < n → (dloop g n st).isSome := by
  intro n
  induction n with
  | zero =>
    intro st h
    exact absurd h (Nat.not_lt_zero _)
  | succ n ih =>
    intro st h
    cases hpop : popMin st.pq with
    | none => rw [dloop_none hpop]; rfl
    | some m =>
      obtain ⟨⟨cur_d, u⟩, rest⟩ := m
      obtain ⟨hm, hrest, hmin⟩ := popMin_spec hpop
      have hlen : rest.length + 1 = st.pq.length := by
        rw [hrest, List.length_erase_of_mem hm]
        have : 0 < st.pq.length := List.length_pos.mpr (List.ne_nil_of_mem hm)
        omega
      rw [dloop_succ hpop]
      by_cases hvis : u ∈ st.visited
      · rw [if_pos hvis]
        refine ih _ ?_
        unfold dmeasure at h ⊢
        simp only
        omega
      · rw [if_neg hvis]
        by_cases hcheck : alget st.dist u = some cur_d
        · rw [if_pos hcheck]
          refine ih _ ?_
          unfold dmeasure at h ⊢
          have h1 := relaxEdges_pq_le u cur_d (g.neighbors u)
            { st with pq := rest, visited := st.visited ++ [u] }
          rw [relaxEdges_visited_eq]
          simp only at h1 ⊢
          have h2 := @degSum_visit g.adj st.visited u hvis
          have hneq : (Graph.neighbors g u).length = ((alget g.adj u).getD []).length := rfl
          omega
        · rw [if_neg hcheck]
          refine ih _ ?_
          unfold dmeasure at h ⊢
          have h2 := @degSum_mono g.adj st.visited (st.visited ++ [u])
            (fun a ha => List.mem_append.mpr (Or.inl ha))
          simp only
          omega

/-- The run of `dijkstra`: the fuelled loop succeeds, drains the queue, and
its final state satisfies the invariants (the non-negative ones whenever
all weights are non-negative). -/
theorem dijkstra_state (g : Graph) (start : String) :
    ∃ st : DState, st.pq = [] ∧ DInv g start st ∧
      (NonnegW g → DInvN g start st) ∧
      dijkstra g start = ⟨st.dist, st.prev⟩ := by
  have hs : (dloop g (dijkstraFuel g start) (dinit start)).isSome := by
    refine dloop_isSome _ _ ?_
    unfold dijkstraFuel
    omega
  obtain ⟨st, hst⟩ := Option.isSome_iff_exists.mp hs
  obtain ⟨hinv, hpq⟩ := dloop_dinv _ _ _ hst (dinit_dinv g start)
  refine ⟨st, hpq, hinv, ?_, ?_⟩
  · intro hnn
    exact dloop_dinvN hnn _ _ _ hst (dinit_dinv g start) (dinit_dinvN g start)
  · unfold dijkstra
    rw [hst]

/-! ### Final-state consequences -/

theorem final_mem_visited {g : Graph} {start : String} {st : DState}
    (h : DInv g start st) (hpq : st.pq = []) :
    ∀ v d, alget st.dist v = some d → v ∈ st.visited := by
  intro v d hd
  rcases h.inQueue v d hd with hvis | hmem
  · exact hvis
  · rw [hpq] at hmem
    simp at hmem

theorem final_reach_dom {g : Graph} {start : String} {st : DState}
    (h : DInv g start st) (hpq : st.pq = []) :
    ∀ (a : String) (p : List Edge) (t : String) (c : ℚ), PathTo g a p t c →
      (alget st.dist a).isSome → (alget st.dist t).isSome := by
  intro a p t c hpath
  induction hpath with
  | nil => exact id
  | cons he _ ih =>
    intro ha
    obtain ⟨da, hda⟩ := Option.isSome_iff_exists.mp ha
    have hvis := final_mem_visited h hpq _ da hda
    exact ih (h.visAdj _ hvis _ he)

theorem final_upper {g : Graph} {start : String} {st : DState}
    (h : DInv g start st) (hn : DInvN g start st) (hpq : st.pq = []) :
    ∀ (a : String) (p : List Edge) (t : String) (c : ℚ), PathTo g a p t c →
      ∀ da, alget st.dist a = some da →
        ∃ dt, alget st.dist t = some dt ∧ dt ≤ da + c := by
  intro a p t c hpath
  induction hpath with
  | nil =>
    intro da hda
    exact ⟨da, hda, by linarith⟩
  | cons he _ ih =>
    intro da hda
    have hvis := final_mem_visited h hpq _ da hda
    obtain ⟨du, dd, hdu, hdd, hle⟩ := hn.g2 _ hvis _ he
    rw [hda] at hdu
    obtain rfl := Option.some.inj hdu
    obtain ⟨dt, hdt, hled⟩ := ih dd hdd
    exact ⟨dt, hdt, by linarith⟩

/-! ### `add_edge` and augmenter lemmas -/

theorem appendEdge_alget_self (l : List (String × List Edge)) (key : String) (e : Edge) :
    alget (appendEdge l key e) key = some ((alget l key).getD [] ++ [e]) := by
  induction l with
  | nil => simp [appendEdge, alget_cons]
  | cons p t ih =>
    obtain ⟨k, es⟩ := p
    show alget (if k = key then (k, es ++ [e]) :: t else (k, es) :: appendEdge t key e)
      key = _
    by_cases hk : k = key
    · rw [if_pos hk, alget_cons, if_pos hk, alget_cons, if_pos hk]
      rfl
    · rw [if_neg hk, alget_cons, if_neg hk, alget_cons, if_neg hk, ih]

theorem appendEdge_alget_ne (l : List (String × List Edge)) {key v : String} (e : Edge)
    (h : v ≠ key) : alget (appendEdge l key e) v = alget l v := by
  induction l with
  | nil =>
    show alget [(key, [e])] v = none
    rw [alget_cons, if_neg (fun hh : key = v => h hh.symm)]
    rfl
  | cons p t ih =>
    obtain ⟨k, es⟩ := p
    show alget (if k = key then (k, es ++ [e]) :: t else (k, es) :: appendEdge t key e)
      v = _
    by_cases hk : k = key
    · rw [if_pos hk, alget_cons, alget_cons,
        if_neg (fun hh : k = v => h (hh ▸ hk.symm ▸ rfl)),
        if_neg (fun hh : k = v => h (hh ▸ hk.symm ▸ rfl))]
    · rw [if_neg hk, alget_cons, alget_cons]
      by_cases hkv : k = v
      · rw [if_pos hkv, if_pos hkv]
      · rw [if_neg hkv, if_neg hkv, ih]

theorem ensureKey_alget_of_isSome (l : List (String × List Edge)) (key v : String)
    (h : (alget l v).isSome) : alget (ensureKey l key) v = alget l v := by
  induction l with
  | nil => simp at h
  | cons p t ih =>
    obtain ⟨k, es⟩ := p
    show alget (if k = key then (k, es) :: t else (k, es) :: ensureKey t key) v = _
    by_cases hk : k = key
    · rw [if_pos hk]
    · rw [if_neg hk, alget_cons, alget_cons]
      by_cases hkv : k = v
      · rw [if_pos hkv, if_pos hkv]
      · rw [if_neg hkv, if_neg hkv]
        rw [alget_cons, if_neg hkv] at h
        exact ih h

theorem add_edge_neighbors_mono {g : Graph} {v : String} {e : Edge}
    (h : e ∈ g.neighbors v) (src dst Result : String) (w : ℚ) :
    e ∈ (g.add_edge src dst Result w).neighbors v := by
  unfold Graph.neighbors at h ⊢
  cases hget : alget g.adj v with
  | none => rw [hget] at h; simp at h
  | some es =>
    rw [hget] at h
    simp only [Option.getD_some] at h
    unfold Graph.add_edge
    by_cases hv : v = src
    · subst hv
      have h1 := appendEdge_alget_self g.adj v ⟨v, dst, Result, w⟩
      rw [hget] at h1
      simp only [Option.getD_some] at h1
      have h2 : alget (ensureKey (appendEdge g.adj v ⟨v, dst, Result, w⟩) dst) v =
          some (es ++ [⟨v, dst, Result, w⟩]) := by
        rw [ensureKey_alget_of_isSome _ dst v (by rw [h1]; rfl), h1]
      simp only [h2, Option.getD_some]
      exact List.mem_append.mpr (Or.inl h)
    · have h1 := appendEdge_alget_ne g.adj ⟨src, dst, Result, w⟩ hv
      rw [hget] at h1
      have h2 : alget (ensureKey (appendEdge g.adj src ⟨src, dst, Result, w⟩) dst) v =
          some es := by
        rw [ensureKey_alget_of_isSome _ dst v (by rw [h1]; rfl), h1]
      simp only [h2, Option.getD_some]
      exact h

theorem add_edge_mem_self (g : Graph) (src dst Result : String) (w : ℚ) :
    (⟨src, dst, Result, w⟩ : Edge) ∈ (g.add_edge src dst Result w).neighbors src := by
  unfold Graph.add_edge Graph.neighbors
  have h1 := appendEdge_alget_self g.adj src ⟨src, dst, Result, w⟩
  have h2 : alget (ensureKey (appendEdge g.adj src ⟨src, dst, Result, w⟩) dst) src =
      some ((alget g.adj src).getD [] ++ [⟨src, dst, Result, w⟩]) := by
    rw [ensureKey_alget_of_isSome _ dst src (by rw [h1]; rfl), h1]
  simp only [h2, Option.getD_some]
  exact List.mem_append.mpr (Or.inr (List.mem_singleton.mpr rfl))

theorem add_core_connectivity_eq (g : Graph) (nodes : List String) (core_node : String)
    (dtc dfc : ℚ) (overrides : List (String × (ℚ × ℚ))) :
    add_core_connectivity g nodes core_node dtc dfc overrides =
      nodes.foldl
        (fun acc n =>
          (acc.add_edge n core_node "route_to_core"
              ((alget overrides n).getD (dtc, dfc)).1).add_edge core_node n
            "route_from_core" ((alget overrides n).getD (dtc, dfc)).2)
        (g.add_edge core_node core_node "noop" 0) := rfl

theorem coreFold_neighbors_mono (core_node : String) (dtc dfc : ℚ)
    (overrides : List (String × (ℚ × ℚ))) :
    ∀ (nodes : List String) (g : Graph) (v : String) (e : Edge),
      e ∈ g.neighbors v →
      e ∈ (nodes.foldl
        (fun acc n =>
          (acc.add_edge n core_node "route_to_core"
              ((alget overrides n).getD (dtc, dfc)).1).add_edge core_node n
            "route_from_core" ((alget overrides n).getD (dtc, dfc)).2) g).neighbors v := by
  intro nodes
  induction nodes with
  | nil => intro g v e h; exact h
  | cons m rest ih =>
    intro g v e h
    exact ih _ v e (add_edge_neighbors_mono (add_edge_neighbors_mono h _ _ _ _) _ _ _ _)

theorem coreFold_connects (core_node : String) (dtc dfc : ℚ)
    (overrides : List (String × (ℚ × ℚ))) :
    ∀ (nodes : List String) (g : Graph) (n : String), n ∈ nodes →
      ∃ e1, e1 ∈ (nodes.foldl
          (fun acc n =>
            (acc.add_edge n core_node "route_to_core"
                ((alget overrides n).getD (dtc, dfc)).1).add_edge core_node n
              "route_from_core" ((alget overrides n).getD (dtc, dfc)).2) g).neighbors n ∧
        e1.dst = core_node ∧
        ∃ e2, e2 ∈ (nodes.foldl
          (fun acc n =>
            (acc.add_edge n core_node "route_to_core"
                ((alget overrides n).getD (dtc, dfc)).1).add_edge core_node n
              "route_from_core" ((alget overrides n).getD (dtc, dfc)).2) g).neighbors
            core_node ∧ e2.dst = n := by
  intro nodes
  induction nodes with
  | nil => intro g n hn; simp at hn
  | cons m rest ih =>
    intro g n hn
    rcases List.mem_cons.mp hn with rfl | hn'
    · refine ⟨⟨n, core_node, "route_to_core", ((alget overrides n).getD (dtc, dfc)).1⟩,
        ?_, rfl,
        ⟨core_node, n, "route_from_core", ((alget overrides n).getD (dtc, dfc)).2⟩,
        ?_, rfl⟩
      · exact coreFold_neighbors_mono core_node dtc dfc overrides rest _ n _
          (add_edge_neighbors_mono (add_edge_mem_self g n core_node "route_to_core" _)
            _ _ _ _)
      · exact coreFold_neighbors_mono core_node dtc dfc overrides rest _ core_node _
          (add_edge_mem_self _ core_node n "route_from_core" _)
    · exact ih _ n hn'

/-! ### Claim theorems -/

/-- The running example graph of the specification:
`A->B` (weight 1), `B->C` (weight 1), `A->C` (weight 5). -/
def demoG : Graph :=
  ((Graph.empty.add_edge "A" "B" "hop" 1).add_edge "B" "C" "hop" 1).add_edge "A" "C"
    "direct" 5

/-- C1: for every graph with non-negative weights and every start node in
the graph, the distance map of `dijkstra` has an entry exactly for the
nodes reachable from `start`, maps `start` to `0`, and maps each node to
the minimum total weight over all directed paths from `start` to it. -/
theorem dijkstra_computes_shortest_distances (g : Graph) (start : String)
    (hnn : NonnegW g) (hstart : start ∈ g.nodes) :
    alget (dijkstra g start).dist start = some 0 ∧
    (∀ v, (alget (dijkstra g start).dist v).isSome ↔ ∃ p c, PathTo g start p v c) ∧
    (∀ v d, alget (dijkstra g start).dist v = some d →
      (∃ p, PathTo g start p v d) ∧ ∀ p c, PathTo g start p v c → d ≤ c) := by
  obtain ⟨st, hpq, h, hnfun, heq⟩ := dijkstra_state g start
  have hn := hnfun hnn
  have hdist : (dijkstra g start).dist = st.dist := by rw [heq]
  rw [hdist]
  refine ⟨hn.s0, ?_, ?_⟩
  · intro v
    constructor
    · intro hv
      obtain ⟨d, hd⟩ := Option.isSome_iff_exists.mp hv
      obtain ⟨p, hp⟩ := h.sound v d hd
      exact ⟨p, d, hp⟩
    · rintro ⟨p, c, hp⟩
      exact final_reach_dom h hpq start p v c hp (by rw [hn.s0]; rfl)
  · intro v d hd
    refine ⟨h.sound v d hd, ?_⟩
    intro p c hp
    obtain ⟨dt, hdt, hle⟩ := final_upper h hn hpq start p v c hp 0 hn.s0
    rw [hd] at hdt
    obtain rfl := Option.some.inj hdt
    linarith

theorem dijkstra_computes_shortest_distances_witness :
    NonnegW demoG ∧ "A" ∈ demoG.nodes ∧
      (alget (dijkstra demoG "A").dist "A" = some 0 ∧
      (∀ v, (alget (dijkstra demoG "A").dist v).isSome ↔
        ∃ p c, PathTo demoG "A" p v c) ∧
      (∀ v d, alget (dijkstra demoG "A").dist v = some d →
        (∃ p, PathTo demoG "A" p v d) ∧ ∀ p c, PathTo demoG "A" p v c → d ≤ c)) :=
  ⟨by decide, by decide,
    dijkstra_computes_shortest_distances demoG "A" (by decide) (by decide)⟩

/-- C3: after `add_core_connectivity` over a node list, every ordered pair
of listed nodes has a finite computed distance: the hub-mediated path
`a -> core -> b` exists, so `b` acquires an entry in the distance map of a
run started at `a`. -/
theorem add_core_connectivity_connects (g : Graph) (nodes : List String)
    (core_node : String) (dtc dfc : ℚ) (overrides : List (String × (ℚ × ℚ)))
    (hdtc : 0 ≤ dtc) (hdfc : 0 ≤ dfc)
    (hov : ∀ p ∈ overrides, 0 ≤ p.2.1 ∧ 0 ≤ p.2.2) (a b : String)
    (ha : a ∈ nodes) (hb : b ∈ nodes) :
    ∃ d, alget (dijkstra (add_core_connectivity g nodes core_node dtc dfc overrides)
      a).dist b = some d := by
  rw [add_core_connectivity_eq]
  have hcona := coreFold_connects core_node dtc dfc overrides nodes
    (g.add_edge core_node core_node "noop" 0) a ha
  have hconb := coreFold_connects core_node dtc dfc overrides nodes
    (g.add_edge core_node core_node "noop" 0) b hb
  revert hcona hconb
  generalize nodes.foldl
      (fun acc n =>
        (acc.add_edge n core_node "route_to_core"
            ((alget overrides n).getD (dtc, dfc)).1).add_edge core_node n
          "route_from_core" ((alget overrides n).getD (dtc, dfc)).2)
      (g.add_edge core_node core_node "noop" 0) = G2
  intro hcona hconb
  obtain ⟨e1, he1, hd1, e2, he2, hd2⟩ := hcona
  obtain ⟨f1, hf1, hfd1, f2, hf2, hfd2⟩ := hconb
  have hpath : PathTo G2 a [e1, f2] b (e1.weight + (f2.weight + 0)) := by
    refine PathTo.cons he1 ?_
    rw [hd1]
    refine PathTo.cons ?_ ?_
    · exact hf2
    · rw [hfd2]
      exact PathTo.nil b
  obtain ⟨st, hpq, h, _, heq⟩ := dijkstra_state G2 a
  have hdist : (dijkstra G2 a).dist = st.dist := by rw [heq]
  rw [hdist]
  have hb' : (alget st.dist b).isSome :=
    final_reach_dom h hpq a _ b _ hpath h.startDom
  exact Option.isSome_iff_exists.mp hb'

theorem add_core_connectivity_connects_witness :
    (0 : ℚ) ≤ 10 ∧ (0 : ℚ) ≤ 10 ∧
    (∀ p ∈ ([("X", ((1 : ℚ), (1 : ℚ)))] : List (String × (ℚ × ℚ))),
      0 ≤ p.2.1 ∧ 0 ≤ p.2.2) ∧
    "X" ∈ ["X", "Y"] ∧ "Y" ∈ ["X", "Y"] ∧
    ∃ d, alget (dijkstra (add_core_connectivity Graph.empty ["X", "Y"] "H" 10 10
      [("X", (1, 1))]) "X").dist "Y" = some d :=
  ⟨by decide, by decide, by decide, by decide, by decide,
    add_core_connectivity_connects Graph.empty ["X", "Y"] "H" 10 10 [("X", (1, 1))]
      (by decide) (by decide) (by decide) "X" "Y" (by decide) (by decide)⟩

theorem shortest_path_eq_ok {g : Graph} {s t : String} (hs : s ∈ g.nodes)
    (ht : t ∈ g.nodes) :
    shortest_path g s t = .ok (alget (dijkstra g s).dist t,
      (rebuild_path (dijkstra g s).prev s t).getD []) := by
  unfold shortest_path
  rw [if_neg (not_not_intro hs), if_neg (not_not_intro ht)]

/-- C4: for a graph with non-negative weights and a node `s` of the graph,
the query from `s` to itself returns total cost `0` and the empty edge
sequence. -/
theorem shortest_path_self_zero (g : Graph) (s : String) (hnn : NonnegW g)
    (hs : s ∈ g.nodes) : shortest_path g s s = .ok (some 0, []) := by
  obtain ⟨st, hpq, h, hnfun, heq⟩ := dijkstra_state g s
  have hn := hnfun hnn
  have hdist : (dijkstra g s).dist = st.dist := by rw [heq]
  rw [shortest_path_eq_ok hs hs, hdist, hn.s0]
  unfold rebuild_path
  rw [if_pos rfl]
  rfl

theorem shortest_path_self_zero_witness :
    NonnegW demoG ∧ "A" ∈ demoG.nodes ∧
      shortest_path demoG "A" "A" = .ok (some 0, []) :=
  ⟨by decide, by decide, shortest_path_self_zero demoG "A" (by decide) (by decide)⟩

/-- C6: triangle inequality of the computed distances — when `b` is
reachable from `a` and `c` from `b`, all three distance entries exist and
`dist a c ≤ dist a b + dist b c`. -/
theorem dijkstra_triangle_inequality (g : Graph) (a b c : String) (hnn : NonnegW g)
    (hab : ∃ p cab, PathTo g a p b cab) (hbc : ∃ p cbc, PathTo g b p c cbc) :
    ∃ dab dbc dac,
      alget (dijkstra g a).dist b = some dab ∧
      alget (dijkstra g b).dist c = some dbc ∧
      alget (dijkstra g a).dist c = some dac ∧ dac ≤ dab + dbc := by
  obtain ⟨sta, hpqa, ha', hnfa, heqa⟩ := dijkstra_state g a
  obtain ⟨stb, hpqb, hb', hnfb, heqb⟩ := dijkstra_state g b
  have hna := hnfa hnn
  have hnb := hnfb hnn
  have hdista : (dijkstra g a).dist = sta.dist := by rw [heqa]
  have hdistb : (dijkstra g b).dist = stb.dist := by rw [heqb]
  rw [hdista, hdistb]
  obtain ⟨pab, cab, hpab⟩ := hab
  obtain ⟨pbc, cbc, hpbc⟩ := hbc
  have hbdom : (alget sta.dist b).isSome :=
    final_reach_dom ha' hpqa a pab b cab hpab (by rw [hna.s0]; rfl)
  obtain ⟨dab, hdab⟩ := Option.isSome_iff_exists.mp hbdom
  have hcdom : (alget stb.dist c).isSome :=
    final_reach_dom hb' hpqb b pbc c cbc hpbc (by rw [hnb.s0]; rfl)
  obtain ⟨dbc, hdbc⟩ := Option.isSome_iff_exists.mp hcdom
  obtain ⟨p1, hp1⟩ := ha'.sound b dab hdab
  obtain ⟨p2, hp2⟩ := hb'.sound c dbc hdbc
  have hcat : PathTo g a (p1 ++ p2) c (dab + dbc) := hp1.append hp2
  obtain ⟨dac, hdac, hle⟩ := final_upper ha' hna hpqa a (p1 ++ p2) c (dab + dbc)
    hcat 0 hna.s0
  exact ⟨dab, dbc, dac, hdab, hdbc, hdac, by linarith⟩

theorem dijkstra_triangle_inequality_witness :
    NonnegW demoG ∧ (∃ p cab, PathTo demoG "A" p "B" cab) ∧
      (∃ p cbc, PathTo demoG "B" p "C" cbc) ∧
      ∃ dab dbc dac,
        alget (dijkstra demoG "A").dist "B" = some dab ∧
        alget (dijkstra demoG "B").dist "C" = some dbc ∧
        alget (dijkstra demoG "A").dist "C" = some dac ∧ dac ≤ dab + dbc :=
  ⟨by decide,
    ⟨_, _, PathTo.cons (e := ⟨"A", "B", "hop", 1⟩) (by decide) (PathTo.nil "B")⟩,
    ⟨_, _, PathTo.cons (e := ⟨"B", "C", "hop", 1⟩) (by decide) (PathTo.nil "C")⟩,
    dijkstra_triangle_inequality demoG "A" "B" "C" (by decide)
      ⟨_, _, PathTo.cons (e := ⟨"A", "B", "hop", 1⟩) (by decide) (PathTo.nil "B")⟩
      ⟨_, _, PathTo.cons (e := ⟨"B", "C", "hop", 1⟩) (by decide) (PathTo.nil "C")⟩⟩

/-- C9: the Dijkstra main loop always terminates: the fuelled loop run by
`dijkstra` (whose fuel is the initial queue length plus the total
out-degree, plus one) finishes with an exhausted queue, and `dijkstra`
returns exactly that final state's maps. -/
theorem dijkstra_loop_terminates (g : Graph) (start : String) :
    ∃ st : DState, dloop g (dijkstraFuel g start) (dinit start) = some st ∧
      st.pq = [] ∧ dijkstra g start = ⟨st.dist, st.prev⟩ := by
  have hs : (dloop g (dijkstraFuel g start) (dinit start)).isSome := by
    refine dloop_isSome _ _ ?_
    unfold dijkstraFuel
    omega
  obtain ⟨st, hst⟩ := Option.isSome_iff_exists.mp hs
  obtain ⟨_, hpq⟩ := dloop_dinv _ _ _ hst (dinit_dinv g start)
  refine ⟨st, hst, hpq, ?_⟩
  unfold dijkstra
  rw [hst]

/-! ### Path-reconstruction lemmas -/

theorem mem_alkeys_of_isSome {α : Type} {l : List (String × α)} {k : String}
    (h : (alget l k).isSome) : k ∈ alkeys l := by
  obtain ⟨v, hv⟩ := Option.isSome_iff_exists.mp h
  exact mem_alkeys_of_alget hv

theorem rebuildW_succ (n : Nat) (prev : List (String × (String × Edge)))
    (start cur : String) (out_rev : List Edge) :
    rebuildW (n + 1) prev start cur out_rev =
      if cur = start then some out_rev.reverse
      else
        match alget prev cur with
        | none => some []
        | some (parent, e) => rebuildW n prev start parent (out_rev ++ [e]) := rfl

/-- On the final state, the visit list is no longer than the predecessor
map plus the start node. -/
theorem final_visited_card {g : Graph} {start : String} {st : DState}
    (h : DInv g start st) (hpq : st.pq = []) :
    st.visited.length ≤ st.prev.length + 1 := by
  have hsub : st.visited ⊆ start :: alkeys st.prev := by
    intro w hw
    obtain ⟨d, hd⟩ := Option.isSome_iff_exists.mp (h.visDom w hw)
    rcases h.hasPrev w d hd with rfl | hp
    · exact List.mem_cons_self _ _
    · exact List.mem_cons_of_mem _ (mem_alkeys_of_isSome hp)
  have := (List.subperm_of_subset h.visNodup hsub).length_le
  simpa [alkeys] using this

/-- The backward walk of `rebuild_path` over a `dijkstra` predecessor map:
from any node holding a distance entry and sitting at visit position at
most `i`, fuel `i + 1` completes the walk and yields the reconstructed
path, which is a real path from `start` achieving the recorded
distance. -/
theorem rebuild_walk {g : Graph} {start : String} {st : DState}
    (h : DInv g start st) (hn : DInvN g start st) (hpq : st.pq = []) :
    ∀ (i : Nat) (v : String) (dv : ℚ), idx st.visited v ≤ i →
      alget st.dist v = some dv → ∀ acc : List Edge,
        ∃ p, rebuildW (i + 1) st.prev start v acc = some (p ++ acc.reverse) ∧
          PathTo g start p v dv := by
  intro i
  induction i with
  | zero =>
    intro v dv hidx hd acc
    by_cases hvs : v = start
    · subst hvs
      rw [hn.s0] at hd
      obtain rfl := Option.some.inj hd
      refine ⟨[], ?_, PathTo.nil v⟩
      rw [rebuildW_succ, if_pos rfl]
      rfl
    · exfalso
      obtain ⟨q, hq⟩ := Option.isSome_iff_exists.mp
        ((h.hasPrev v dv hd).resolve_left hvs)
      obtain ⟨du, hdu, hdv, hqvis, hidx'⟩ := hn.pfull v q hq
      omega
  | succ j ih =>
    intro v dv hidx hd acc
    by_cases hvs : v = start
    · subst hvs
      rw [hn.s0] at hd
      obtain rfl := Option.some.inj hd
      refine ⟨[], ?_, PathTo.nil v⟩
      rw [rebuildW_succ, if_pos rfl]
      rfl
    · obtain ⟨q, hq⟩ := Option.isSome_iff_exists.mp
        ((h.hasPrev v dv hd).resolve_left hvs)
      obtain ⟨u, e⟩ := q
      obtain ⟨du, hdu, hdv, hqvis, hidx'⟩ := hn.pfull v (u, e) hq
      obtain ⟨hadj, hdst⟩ := h.prevAdj v (u, e) hq
      have hdu' : alget st.dist u = some du := hdu
      have hidx2 : idx st.visited u < idx st.visited v := hidx'
      rw [hd] at hdv
      obtain rfl := Option.some.inj hdv
      have hui : idx st.visited u ≤ j := by omega
      obtain ⟨p', hwalk, hpath⟩ := ih u du hui hdu' (acc ++ [e])
      refine ⟨p' ++ [e], ?_, ?_⟩
      · rw [rebuildW_succ, if_neg hvs, hq]
        show rebuildW (j + 1) st.prev start u (acc ++ [e]) =
          some ((p' ++ [e]) ++ acc.reverse)
        rw [hwalk]
        congr 1
        simp [List.reverse_append]
      · have := hpath.snoc hadj
        rw [hdst] at this
        exact this

/-- C2: for reachable `t ≠ s` in a non-negative-weight well-formed graph,
`rebuild_path` applied to the predecessor map of `dijkstra g s` returns a
contiguous edge sequence from `s` to `t` whose weights sum to the
distance-map entry of `t`. -/
theorem rebuild_path_reconstructs (g : Graph) (s t : String) (hnn : NonnegW g)
    (hwf : WFAdj g) (hreach : ∃ p c, PathTo g s p t c) (hne : t ≠ s) :
    ∃ es dt, rebuild_path (dijkstra g s).prev s t = some es ∧
      alget (dijkstra g s).dist t = some dt ∧ EdgeLink s es t ∧ sumW es = dt := by
  obtain ⟨st, hpq, h, hnfun, heq⟩ := dijkstra_state g s
  have hn := hnfun hnn
  have hdist : (dijkstra g s).dist = st.dist := by rw [heq]
  have hprev : (dijkstra g s).prev = st.prev := by rw [heq]
  rw [hdist, hprev]
  obtain ⟨p0, c0, hp0⟩ := hreach
  have htdom : (alget st.dist t).isSome :=
    final_reach_dom h hpq s p0 t c0 hp0 (by rw [hn.s0]; rfl)
  obtain ⟨dt, hdt⟩ := Option.isSome_iff_exists.mp htdom
  have htvis : t ∈ st.visited := final_mem_visited h hpq t dt hdt
  have hidx : idx st.visited t ≤ st.prev.length := by
    have h1 := idx_lt_length htvis
    have h2 := final_visited_card h hpq
    omega
  obtain ⟨p, hwalk, hpath⟩ := rebuild_walk h hn hpq st.prev.length t dt hidx hdt []
  refine ⟨p, dt, ?_, hdt, hpath.toEdgeLink hwf, hpath.sumW_eq⟩
  unfold rebuild_path
  rw [if_neg hne, hwalk]
  simp

theorem rebuild_path_reconstructs_witness :
    NonnegW demoG ∧ WFAdj demoG ∧ (∃ p c, PathTo demoG "A" p "C" c) ∧ "C" ≠ "A" ∧
      ∃ es dt, rebuild_path (dijkstra demoG "A").prev "A" "C" = some es ∧
        alget (dijkstra demoG "A").dist "C" = some dt ∧ EdgeLink "A" es "C" ∧
        sumW es = dt :=
  ⟨by decide, by decide,
    ⟨_, _, PathTo.cons (e := ⟨"A", "B", "hop", 1⟩) (by decide)
      (PathTo.cons (e := ⟨"B", "C", "hop", 1⟩) (by decide) (PathTo.nil "C"))⟩,
    by decide,
    rebuild_path_reconstructs demoG "A" "C" (by decide) (by decide)
      ⟨_, _, PathTo.cons (e := ⟨"A", "B", "hop", 1⟩) (by decide)
        (PathTo.cons (e := ⟨"B", "C", "hop", 1⟩) (by decide) (PathTo.nil "C"))⟩
      (by decide)⟩

/-- C10: the predecessor maps produced by `dijkstra` on non-negative-weight
graphs are grounded: following predecessor links from any mapped node
reaches `start` (yielding a real path achieving the recorded distance),
and `rebuild_path` terminates — returns a value — for every target. -/
theorem rebuild_path_always_terminates (g : Graph) (s : String) (hnn : NonnegW g) :
    (∀ v q, alget (dijkstra g s).prev v = some q →
      ∃ es d, rebuild_path (dijkstra g s).prev s v = some es ∧
        alget (dijkstra g s).dist v = some d ∧ PathTo g s es v d) ∧
    (∀ target, (rebuild_path (dijkstra g s).prev s target).isSome) := by
  obtain ⟨st, hpq, h, hnfun, heq⟩ := dijkstra_state g s
  have hn := hnfun hnn
  have hdist : (dijkstra g s).dist = st.dist := by rw [heq]
  have hprev : (dijkstra g s).prev = st.prev := by rw [heq]
  rw [hdist, hprev]
  have hwalk_all : ∀ v dv, alget st.dist v = some dv → v ≠ s →
      ∃ p, rebuildW (st.prev.length + 1) st.prev s v [] = some p ∧
        PathTo g s p v dv := by
    intro v dv hdv hvs
    have hvvis : v ∈ st.visited := final_mem_visited h hpq v dv hdv
    have hidx : idx st.visited v ≤ st.prev.length := by
      have h1 := idx_lt_length hvvis
      have h2 := final_visited_card h hpq
      omega
    obtain ⟨p, hw, hp⟩ := rebuild_walk h hn hpq st.prev.length v dv hidx hdv []
    refine ⟨p, ?_, hp⟩
    rw [hw]
    simp
  constructor
  · intro v q hq
    by_cases hvs : v = s
    · subst hvs
      refine ⟨[], 0, ?_, hn.s0, PathTo.nil v⟩
      unfold rebuild_path
      rw [if_pos rfl]
    · obtain ⟨du, hdu, hdv, _, _⟩ := hn.pfull v q hq
      obtain ⟨p, hw, hp⟩ := hwalk_all v (du + q.2.weight) hdv hvs
      refine ⟨p, du + q.2.weight, ?_, hdv, hp⟩
      unfold rebuild_path
      rw [if_neg hvs, hw]
  · intro target
    unfold rebuild_path
    by_cases hts : target = s
    · rw [if_pos hts]
      rfl
    · rw [if_neg hts]
      cases hq : alget st.prev target with
      | none =>
        rw [rebuildW_succ, if_neg hts, hq]
        rfl
      | some q =>
        obtain ⟨du, hdu, hdv, _, _⟩ := hn.pfull target q hq
        obtain ⟨p, hw, _⟩ := hwalk_all target (du + q.2.weight) hdv hts
        rw [hw]
        rfl

theorem rebuild_path_always_terminates_witness :
    NonnegW demoG ∧
      ((∀ v q, alget (dijkstra demoG "A").prev v = some q →
        ∃ es d, rebuild_path (dijkstra demoG "A").prev "A" v = some es ∧
          alget (dijkstra demoG "A").dist v = some d ∧ PathTo demoG "A" es v d) ∧
      (∀ target, (rebuild_path (dijkstra demoG "A").prev "A" target).isSome)) :=
  ⟨by decide, rebuild_path_always_terminates demoG "A" (by decide)⟩

/-- C5: a query whose start or target node is absent from the graph is an
explicit failure of `shortest_path` (modelling the early-return error
branches of `main`), never an ordinary result. -/
theorem shortest_path_unknown_node_error (g : Graph) (s t : String)
    (h : s ∉ g.nodes ∨ t ∉ g.nodes) :
    (∃ msg, shortest_path g s t = .error msg) ∧
      ∀ res, shortest_path g s t ≠ .ok res := by
  unfold shortest_path
  by_cases hs : s ∉ g.nodes
  · rw [if_pos hs]
    exact ⟨⟨_, rfl⟩, fun res hcon => Except.noConfusion hcon⟩
  · have ht : t ∉ g.nodes := h.resolve_left hs
    rw [if_neg hs, if_pos ht]
    exact ⟨⟨_, rfl⟩, fun res hcon => Except.noConfusion hcon⟩

theorem shortest_path_unknown_node_error_witness :
    ("A" ∉ demoG.nodes ∨ "Z" ∉ demoG.nodes) ∧
      ((∃ msg, shortest_path demoG "A" "Z" = .error msg) ∧
        ∀ res, shortest_path demoG "A" "Z" ≠ .ok res) :=
  ⟨Or.inr (by decide),
    shortest_path_unknown_node_error demoG "A" "Z" (Or.inr (by decide))⟩

/-- C7: `rank` returns exactly the requested targets (as a permutation),
in non-decreasing order of computed cost, and every unreachable target
(cost `⊤`) comes after every reachable one. -/
theorem rank_sorted_by_distance (g : Graph) (start : String) (targets : List String) :
    ((rank g start targets).map Prod.fst).Perm targets ∧
    List.Pairwise rankLe (rank g start targets) ∧
    List.Pairwise (fun x y => x.2 = ⊤ → y.2 = ⊤) (rank g start targets) := by
  unfold rank
  refine ⟨?_, ?_, ?_⟩
  · refine ((List.perm_insertionSort rankLe _).map Prod.fst).trans ?_
    rw [List.map_map]
    have hid : (Prod.fst ∘ fun a => (a, distTop (dijkstra g start).dist a)) =
        fun a : String => a := rfl
    rw [hid]
    rw [show targets.map (fun a : String => a) = targets from List.map_id' targets]
  · exact List.sorted_insertionSort rankLe _
  · refine List.Pairwise.imp ?_ (List.sorted_insertionSort rankLe _)
    intro x y hxy
    intro htop
    have : rankLe x y := hxy
    unfold rankLe at this
    rw [htop] at this
    exact top_le_iff.mp this

/-! ### The graph-store invariant (operation sequences) -/

/-- The two mutating operations of the store's public interface. -/
inductive GOp where
  | addEdge (src dst Result : String) (weight : ℚ)
  | addCore (nodes : List String) (core_node : String) (dtc dfc : ℚ)
      (overrides : List (String × (ℚ × ℚ)))

/-- Interpretation of one operation. -/
def applyOp (g : Graph) : GOp → Graph
  | .addEdge src dst Result w => g.add_edge src dst Result w
  | .addCore nodes core_node dtc dfc overrides =>
      add_core_connectivity g nodes core_node dtc dfc overrides

/-- Running a whole operation sequence from the empty store. -/
def applyOps (ops : List GOp) : Graph := ops.foldl applyOp Graph.empty

/-- The adjacency-store invariant: every destination mentioned by a stored
edge is itself a key of the mapping. -/
def ClosedDsts (g : Graph) : Prop := ∀ p ∈ g.adj, ∀ e ∈ p.2, e.dst ∈ g.nodes

theorem mem_alkeys_appendEdge {l : List (String × List Edge)} {v : String}
    (key : String) (e : Edge) (h : v ∈ alkeys l) : v ∈ alkeys (appendEdge l key e) := by
  induction l with
  | nil => simp at h
  | cons p t ih =>
    obtain ⟨k, es⟩ := p
    show v ∈ alkeys (if k = key then (k, es ++ [e]) :: t else (k, es) :: appendEdge t key e)
    simp only [alkeys_cons, List.mem_cons] at h
    by_cases hk : k = key
    · rw [if_pos hk]
      simpa [alkeys_cons] using h
    · rw [if_neg hk]
      simp only [alkeys_cons, List.mem_cons]
      rcases h with h | h
      · exact Or.inl h
      · exact Or.inr (ih h)

theorem mem_alkeys_ensureKey {l : List (String × List Edge)} {v : String}
    (key : String) (h : v ∈ alkeys l) : v ∈ alkeys (ensureKey l key) := by
  induction l with
  | nil => simp at h
  | cons p t ih =>
    obtain ⟨k, es⟩ := p
    show v ∈ alkeys (if k = key then (k, es) :: t else (k, es) :: ensureKey t key)
    simp only [alkeys_cons, List.mem_cons] at h
    by_cases hk : k = key
    · rw [if_pos hk]
      simpa [alkeys_cons] using h
    · rw [if_neg hk]
      simp only [alkeys_cons, List.mem_cons]
      rcases h with h | h
      · exact Or.inl h
      · exact Or.inr (ih h)

theorem self_mem_alkeys_ensureKey (l : List (String × List Edge)) (key : String) :
    key ∈ alkeys (ensureKey l key) := by
  induction l with
  | nil => simp [ensureKey]
  | cons p t ih =>
    obtain ⟨k, es⟩ := p
    show key ∈ alkeys (if k = key then (k, es) :: t else (k, es) :: ensureKey t key)
    by_cases hk : k = key
    · rw [if_pos hk]
      simp [alkeys_cons, hk]
    · rw [if_neg hk]
      simp only [alkeys_cons, List.mem_cons]
      exact Or.inr ih

theorem edges_of_appendEdge {l : List (String × List Edge)} {key : String} {e0 : Edge}
    {e : Edge} :
    ∀ p : String × List Edge, p ∈ appendEdge l key e0 → e ∈ p.2 →
      (∃ q ∈ l, e ∈ q.2) ∨ e = e0 := by
  induction l with
  | nil =>
    intro p hp he
    simp [appendEdge] at hp
    subst hp
    simp at he
    exact Or.inr he
  | cons q t ih =>
    intro p hp he
    obtain ⟨k, es⟩ := q
    by_cases hk : k = key
    · rw [show appendEdge ((k, es) :: t) key e0 =
          (k, es ++ [e0]) :: t by simp [appendEdge, hk]] at hp
      rcases List.mem_cons.mp hp with rfl | hp'
      · simp only [List.mem_append, List.mem_singleton] at he
        rcases he with he | he
        · exact Or.inl ⟨(k, es), List.mem_cons_self _ _, he⟩
        · exact Or.inr he
      · exact Or.inl ⟨p, List.mem_cons_of_mem _ hp', he⟩
    · rw [show appendEdge ((k, es) :: t) key e0 =
          (k, es) :: appendEdge t key e0 by simp [appendEdge, hk]] at hp
      rcases List.mem_cons.mp hp with rfl | hp'
      · exact Or.inl ⟨(k, es), List.mem_cons_self _ _, he⟩
      · rcases ih p hp' he with ⟨q', hq', he'⟩ | he'
        · exact Or.inl ⟨q', List.mem_cons_of_mem _ hq', he'⟩
        · exact Or.inr he'

theorem edges_of_ensureKey {l : List (String × List Edge)} {key : String} {e : Edge} :
    ∀ p : String × List Edge, p ∈ ensureKey l key → e ∈ p.2 → ∃ q ∈ l, e ∈ q.2 := by
  induction l with
  | nil =>
    intro p hp he
    simp [ensureKey] at hp
    subst hp
    simp at he
  | cons q t ih =>
    intro p hp he
    obtain ⟨k, es⟩ := q
    by_cases hk : k = key
    · rw [show ensureKey ((k, es) :: t) key = (k, es) :: t by simp [ensureKey, hk]] at hp
      exact ⟨p, hp, he⟩
    · rw [show ensureKey ((k, es) :: t) key =
          (k, es) :: ensureKey t key by simp [ensureKey, hk]] at hp
      rcases List.mem_cons.mp hp with rfl | hp'
      · exact ⟨(k, es), List.mem_cons_self _ _, he⟩
      · obtain ⟨q', hq', he'⟩ := ih p hp' he
        exact ⟨q', List.mem_cons_of_mem _ hq', he'⟩

theorem add_edge_closed {g : Graph} (hc : ClosedDsts g) (src dst Result : String)
    (w : ℚ) : ClosedDsts (g.add_edge src dst Result w) := by
  intro p hp e he
  unfold Graph.add_edge at hp
  obtain ⟨q, hq, he'⟩ := edges_of_ensureKey p hp he
  rcases edges_of_appendEdge q hq he' with ⟨q', hq', he''⟩ | rfl
  · have : e.dst ∈ g.nodes := hc q' hq' e he''
    unfold Graph.nodes Graph.add_edge
    exact mem_alkeys_ensureKey dst (mem_alkeys_appendEdge src _ this)
  · show dst ∈ (g.add_edge src dst Result w).nodes
    unfold Graph.nodes Graph.add_edge
    exact self_mem_alkeys_ensureKey _ dst

theorem add_core_connectivity_closed {g : Graph} (hc : ClosedDsts g)
    (nodes : List String) (core_node : String) (dtc dfc : ℚ)
    (overrides : List (String × (ℚ × ℚ))) :
    ClosedDsts (add_core_connectivity g nodes core_node dtc dfc overrides) := by
  rw [add_core_connectivity_eq]
  have hbase : ClosedDsts (g.add_edge core_node core_node "noop" 0) :=
    add_edge_closed hc core_node core_node "noop" 0
  revert hbase
  generalize g.add_edge core_node core_node "noop" 0 = base
  induction nodes generalizing base with
  | nil => exact id
  | cons m rest ih =>
    intro hb
    exact ih _ (add_edge_closed (add_edge_closed hb m core_node "route_to_core" _)
      core_node m "route_from_core" _)

/-- C8: the adjacency-store invariant holds after any sequence of
`add_edge` and `add_core_connectivity` operations starting from the empty
graph — every stored edge's destination is a key of the mapping — and
`neighbors` of any absent node is the empty list, never a failure. -/
theorem graph_store_invariant (ops : List GOp) :
    ClosedDsts (applyOps ops) ∧
      ∀ n, n ∉ (applyOps ops).nodes → (applyOps ops).neighbors n = [] := by
  constructor
  · unfold applyOps
    have hrun : ∀ (l : List GOp) (g : Graph), ClosedDsts g →
        ClosedDsts (l.foldl applyOp g) := by
      intro l
      induction l with
      | nil => exact fun g hg => hg
      | cons op rest ih =>
        intro g hg
        refine ih _ ?_
        cases op with
        | addEdge src dst Result w => exact add_edge_closed hg src dst Result w
        | addCore nodes core_node dtc dfc overrides =>
          exact add_core_connectivity_closed hg nodes core_node dtc dfc overrides
    refine hrun ops Graph.empty ?_
    intro p hp
    simp [Graph.empty] at hp
  · intro n hn
    unfold Graph.neighbors
    rw [alget_eq_none_of_not_mem hn]
    rfl
